import Mathlib

/-!
Verification of the SRT chunking / timestamp-shift / merge pipeline of
the repository (src/app.py).  The pure core of the program is embedded
shallowly: Python strings become lists of characters, Python ints become
Nat/Int, and Python floats (IEEE-754 binary64) are embedded as rationals
together with an explicit round-to-nearest-even operation applied at
every floating-point operation, so that the embedding reproduces the
double-precision arithmetic of the source exactly.
-/

set_option maxRecDepth 100000

namespace SrtApp

/-- Fuel-driven binary logarithm so that the kernel can evaluate it
(auxiliary for the floating-point embedding). -/
def natLog2Aux : ℕ → ℕ → ℕ
  | 0, _ => 0
  | fuel + 1, n => if 2 ≤ n then natLog2Aux fuel (n / 2) + 1 else 0

/-- Floor of the base-2 logarithm of a natural number (0 for inputs 0, 1). -/
def natLog2 (n : ℕ) : ℕ := natLog2Aux n n

/-- Rational power of two with integer exponent, written so the kernel
can evaluate it on concrete inputs. -/
def twoZpow (e : ℤ) : ℚ :=
  if 0 ≤ e then ((2 ^ e.toNat : ℕ) : ℚ) else 1 / ((2 ^ (-e).toNat : ℕ) : ℚ)

/-- Floor of the base-2 logarithm of a positive rational. -/
def floorLog2 (q : ℚ) : ℤ :=
  let a : ℤ := natLog2 q.num.toNat
  let b : ℤ := natLog2 q.den
  if twoZpow (a - b) ≤ q then a - b else a - b - 1

/-- Round a rational to the nearest integer, ties to even (IEEE-754
default rounding). -/
def rne (q : ℚ) : ℤ :=
  let f := ⌊q⌋
  let r := q - f
  if r < 1/2 then f
  else if 1/2 < r then f + 1
  else if 2 ∣ f then f else f + 1

/-- Round a positive rational to the nearest IEEE-754 binary64 value
(53-bit significand; the exponent range is never exceeded by the values
this program manipulates). -/
def roundPos (q : ℚ) : ℚ :=
  ((rne (q / twoZpow (floorLog2 q - 52)) : ℤ) : ℚ) * twoZpow (floorLog2 q - 52)

/-- Round a rational to the nearest IEEE-754 binary64 value.  Every
floating-point operation of the Python source is embedded as the exact
rational operation followed by this rounding. -/
def roundD (q : ℚ) : ℚ :=
  if q = 0 then 0 else if 0 < q then roundPos q else -roundPos (-q)

/-- Python's int() applied to a float: truncation toward zero. -/
def pyTrunc (q : ℚ) : ℤ := if 0 ≤ q then ⌊q⌋ else -⌊-q⌋

/-- Python's float modulo.  CPython computes fmod (which is exact:
x - trunc(x/y)*y is always representable) and then, when the result is
nonzero and its sign differs from the divisor's, adds the divisor (one
floating-point addition). -/
def pyMod (x y : ℚ) : ℚ :=
  let m := x - (pyTrunc (x / y) : ℚ) * y
  if m ≠ 0 ∧ ¬((m < 0) ↔ (y < 0)) then roundD (m + y) else m

/-- The arithmetic of adjust_timestamp (src/app.py lines 57-71) on the
four parsed components, for a given offset: every float operation of the
source is rounded; int(x // y) on nonnegative in-range floats is floor
division (CPython float floor-division returns the exact floor). -/
def adjustTimestampCore (off : ℚ) (hours minutes seconds milliseconds : ℕ) :
    ℤ × ℤ × ℤ × ℤ :=
  let total0 : ℚ :=
    roundD ((hours * 3600 + minutes * 60 + seconds : ℕ) + roundD ((milliseconds : ℚ) / 1000))
  let total : ℚ := roundD (total0 + off)
  (⌊total / 3600⌋, ⌊pyMod total 3600 / 60⌋, pyTrunc (pyMod total 60),
    pyTrunc (roundD (pyMod total 1 * 1000)))

/-- Decimal digit character for a value 0-9. -/
def digitChar (d : ℕ) : Char :=
  match d with
  | 0 => '0' | 1 => '1' | 2 => '2' | 3 => '3' | 4 => '4'
  | 5 => '5' | 6 => '6' | 7 => '7' | 8 => '8' | _ => '9'

/-- Fuel-driven decimal rendering of a natural number. -/
def natCharsAux : ℕ → ℕ → List Char → List Char
  | 0, _, acc => acc
  | fuel + 1, n, acc =>
    if n < 10 then digitChar n :: acc
    else natCharsAux fuel (n / 10) (digitChar (n % 10) :: acc)

/-- Decimal rendering of a natural number, as Python's str(). -/
def natChars (n : ℕ) : List Char := natCharsAux (n + 1) n []

/-- Zero-pad a natural number's decimal rendering to a given width. -/
def padChars (w : ℕ) (n : ℕ) : List Char :=
  List.replicate (w - (natChars n).length) '0' ++ natChars n

/-- Python's format spec 0wd applied to an int: total width includes the
sign for negative values. -/
def intPad (w : ℕ) (x : ℤ) : List Char :=
  if x < 0 then '-' :: padChars (w - 1) (-x).toNat else padChars w x.toNat

/-- Numeric value of a decimal digit character. -/
def digitVal (c : Char) : ℕ := c.toNat - 48

/-- The replacement string produced by adjust_timestamp:
f-string 02d:02d:02d,03d over the shifted components. -/
def replTimestamp (off : ℚ) (h m s ms : ℕ) : List Char :=
  match adjustTimestampCore off h m s ms with
  | (nh, nm, ns, nms) =>
    intPad 2 nh ++ ':' :: (intPad 2 nm ++ ':' :: (intPad 2 ns ++ ',' :: intPad 3 nms))

/-- Whether 12 characters form the timestamp pattern dd:dd:dd,ddd. -/
def isTs12 (c1 c2 c3 c4 c5 c6 c7 c8 c9 c10 c11 c12 : Char) : Bool :=
  c1.isDigit && c2.isDigit && c3 == ':' && c4.isDigit && c5.isDigit && c6 == ':' &&
    c7.isDigit && c8.isDigit && c9 == ',' && c10.isDigit && c11.isDigit && c12.isDigit

/-- First-position match of the timestamp regex: the 12 matched
characters and the remainder, if the input starts with the pattern. -/
def tryMatch : List Char → Option (List Char × List Char)
  | c1 :: c2 :: c3 :: c4 :: c5 :: c6 :: c7 :: c8 :: c9 :: c10 :: c11 :: c12 :: rest =>
    if isTs12 c1 c2 c3 c4 c5 c6 c7 c8 c9 c10 c11 c12 then
      some ([c1, c2, c3, c4, c5, c6, c7, c8, c9, c10, c11, c12], rest)
    else none
  | _ => none

/-- Replacement for a 12-character timestamp match: parse the components
(the source splits on separators and applies int) and format the shifted
timestamp. -/
def replOf (off : ℚ) (w : List Char) : List Char :=
  match w with
  | [c1, c2, _, c4, c5, _, c7, c8, _, c10, c11, c12] =>
    replTimestamp off (10 * digitVal c1 + digitVal c2) (10 * digitVal c4 + digitVal c5)
      (10 * digitVal c7 + digitVal c8)
      (100 * digitVal c10 + 10 * digitVal c11 + digitVal c12)
  | _ => []

/-- Fuel-driven leftmost non-overlapping scan of re.sub: on a match,
emit its replacement and continue after it; otherwise copy one
character.  The fuel (an upper bound on the input length) only makes the
recursion structural; it is never exhausted when it starts at the input
length. -/
def subTsF (off : ℚ) : ℕ → List Char → List Char
  | 0, cs => cs
  | _ + 1, [] => []
  | fuel + 1, c1 :: rest =>
    match tryMatch (c1 :: rest) with
    | some (w, rest2) => replOf off w ++ subTsF off fuel rest2
    | none => c1 :: subTsF off fuel rest

/-- re.sub of the timestamp pattern with adjust_timestamp: leftmost,
non-overlapping scan replacing every match. -/
def subTimestamps (off : ℚ) (cs : List Char) : List Char := subTsF off cs.length cs

/-- adjust_srt_timestamps (src/app.py lines 52-75): identity when the
offset equals 0, otherwise regex substitution of every timestamp. -/
def adjust_srt_timestamps (srt_content : String) (offset_seconds : ℚ) : String :=
  if offset_seconds = 0 then srt_content
  else String.mk (subTimestamps offset_seconds srt_content.data)

/-- Python str whitespace (the characters Python's strip removes). -/
def pyWs (c : Char) : Bool :=
  c == ' ' || c == '\t' || c == '\n' || c == '\r' || c == '\x0B' || c == '\x0C'

/-- Python's str.strip(): drop leading and trailing whitespace. -/
def pyStrip (cs : List Char) : List Char :=
  ((cs.dropWhile pyWs).reverse.dropWhile pyWs).reverse

/-- Python's str.split on a double newline, accumulator form (leftmost,
non-overlapping separators). -/
def splitNNAux : List Char → List Char → List (List Char)
  | acc, '\n' :: '\n' :: rest => acc.reverse :: splitNNAux [] rest
  | acc, c :: rest => splitNNAux (c :: acc) rest
  | acc, [] => [acc.reverse]

/-- Python's s.split of a double newline. -/
def splitNN (cs : List Char) : List (List Char) := splitNNAux [] cs

/-- Python's str.split on a single newline, accumulator form. -/
def splitNAux : List Char → List Char → List (List Char)
  | acc, '\n' :: rest => acc.reverse :: splitNAux [] rest
  | acc, c :: rest => splitNAux (c :: acc) rest
  | acc, [] => [acc.reverse]

/-- Python's s.split of a single newline. -/
def splitN (cs : List Char) : List (List Char) := splitNAux [] cs

/-- Python's single-newline join. -/
def joinN : List (List Char) → List Char
  | [] => []
  | [x] => x
  | x :: xs => x ++ '\n' :: joinN xs

/-- Python's double-newline join. -/
def joinNN : List (List Char) → List Char
  | [] => []
  | [x] => x
  | x :: xs => x ++ '\n' :: '\n' :: joinNN xs

/-- The inner block loop of merge_srt_files (src/app.py lines 90-97):
keep a candidate block when its strip is nonempty and has at least 3
lines, replacing its first line with the running index. -/
def processBlocks (idx : ℕ) : List (List Char) → List (List Char) × ℕ
  | [] => ([], idx)
  | b :: bs =>
    if pyStrip b ≠ [] then
      if 3 ≤ (splitN (pyStrip b)).length then
        let res := processBlocks (idx + 1) bs
        (joinN (natChars idx :: (splitN (pyStrip b)).tail) :: res.1, res.2)
      else processBlocks idx bs
    else processBlocks idx bs

/-- The chunk loop of merge_srt_files: shift each document by its
offset, split into candidate blocks, and process them with the running
index. -/
def mergeAux (idx : ℕ) : List (String × ℚ) → List (List Char)
  | [] => []
  | (content, off) :: rest =>
    let pb := processBlocks idx (splitNN (pyStrip (adjust_srt_timestamps content off).data))
    pb.1 ++ mergeAux pb.2 rest

/-- merge_srt_files (src/app.py lines 78-99). -/
def merge_srt_files (contents : List String) (start_times : List ℚ) : String :=
  String.mk (joinNN (mergeAux 1 (contents.zip start_times)))

/-- The merge step of the driver (src/app.py lines 224-229): a single
document is returned unchanged, otherwise merge_srt_files runs. -/
def mergeDocuments (docs : List String) (times : List ℚ) : String :=
  match docs with
  | [d] => d
  | _ => merge_srt_files docs times

instance {ε α : Type} [DecidableEq ε] [DecidableEq α] : DecidableEq (Except ε α) := fun a b =>
  match a, b with
  | .error e, .error e' =>
    if h : e = e' then .isTrue (by rw [h]) else .isFalse (by simp [h])
  | .ok v, .ok v' =>
    if h : v = v' then .isTrue (by rw [h]) else .isFalse (by simp [h])
  | .error _, .ok _ => .isFalse (by simp)
  | .ok _, .error _ => .isFalse (by simp)

/-- Python's range(0, stop, step) over nonnegative stop: ValueError on a
zero step, empty for a negative step, else the multiples of step below
stop. -/
def pythonRangeZero (stop : ℕ) (step : ℤ) : Except String (List ℕ) :=
  if step = 0 then .error "ValueError: range() arg 3 must not be zero"
  else if step < 0 then .ok []
  else .ok ((List.range ((stop + step.toNat - 1) / step.toNat)).map (fun i => i * step.toNat))

/-- split_audio (src/app.py lines 18-34): chunks are the slice bounds
source[i : i+length] (clamped to the source length) and start_times the
floats i/1000. -/
def split_audio (sourceLen : ℕ) (length : ℤ) :
    Except String (List (ℕ × ℕ) × List ℚ) :=
  match pythonRangeZero sourceLen length with
  | .error e => .error e
  | .ok idxs =>
    .ok (idxs.map (fun i => (i, min (i + length.toNat) sourceLen)),
      idxs.map (fun (i : ℕ) => roundD ((i : ℚ) / 1000)))

/-- The keep-condition of the block loop (src/app.py lines 91-93): the
stripped block is nonempty and splits into at least 3 lines. -/
def keepBlock (b : List Char) : Bool :=
  !(pyStrip b).isEmpty && decide (3 ≤ (splitN (pyStrip b)).length)

/-- The rendering of one kept block (src/app.py lines 95-96): its first
line replaced by the running index, the rest joined by newlines. -/
def blockOut (idx : ℕ) (b : List Char) : List Char :=
  joinN (natChars idx :: (splitN (pyStrip b)).tail)

/-- Sequential renumbering: render the blocks of a list with
consecutive indices starting at the given one. -/
def numberFrom (idx : ℕ) : List (List Char) → List (List Char)
  | [] => []
  | b :: bs => blockOut idx b :: numberFrom (idx + 1) bs

/-- The surviving candidate blocks of a merge input, in chunk order and
internal order: each document is shifted by its offset, stripped, split
on blank lines, and filtered by the keep-condition. -/
def survivors (pairs : List (String × ℚ)) : List (List Char) :=
  pairs.flatMap fun p =>
    (splitNN (pyStrip (adjust_srt_timestamps p.1 p.2).data)).filter keepBlock

/-- The rendered HH:MM:SS,mmm form of a timestamp's four components
(the f-string of src/app.py line 71 applied to unshifted values). -/
def renderTs (h m s ms : ℕ) : List Char :=
  intPad 2 (h : ℤ) ++ ':' :: (intPad 2 (m : ℤ) ++ ':' :: (intPad 2 (s : ℤ) ++ ',' :: intPad 3 (ms : ℤ)))

/-- Split a string at the first double newline, if any: the part before
and the part after (specification form of splitNN used in proofs). -/
def breakNN : List Char → Option (List Char × List Char)
  | '\n' :: '\n' :: rest => some ([], rest)
  | c :: rest => (breakNN rest).map (fun p => (c :: p.1, p.2))
  | [] => none

/-- Split a string at the first newline, if any (specification form of
splitN used in proofs). -/
def breakN : List Char → Option (List Char × List Char)
  | '\n' :: rest => some ([], rest)
  | c :: rest => (breakN rest).map (fun p => (c :: p.1, p.2))
  | [] => none

/-- The character class of the timestamp regex: decimal digits and the
two separators.  Every character of a regex match is of this class. -/
def pAlpha (c : Char) : Bool := c.isDigit || c == ':' || c == ','

example : roundD 121 = 121 := by with_unfolding_all decide
example : roundD 0 = 0 := by with_unfolding_all decide
example : roundD (999/1000) ≠ 999/1000 := by with_unfolding_all decide
example : roundD (1/8) = 1/8 := by with_unfolding_all decide
example : adjustTimestampCore 300 0 0 10 500 = (0, 5, 10, 500) := by with_unfolding_all decide
example : adjustTimestampCore 1 0 59 59 999 = (1, 0, 0, 998) := by with_unfolding_all decide
example : adjustTimestampCore 0 0 59 59 2 = (0, 59, 59, 1) := by with_unfolding_all decide
example : adjust_srt_timestamps "00:00:01,000 --> 00:00:03,000" 120 =
    "00:02:01,000 --> 00:02:03,000" := by with_unfolding_all decide
example :
    merge_srt_files ["1\n00:00:00,000 --> 00:00:02,000\nHello",
      "1\n00:00:01,000 --> 00:00:03,000\nWorld"] [0, 120] =
    "1\n00:00:00,000 --> 00:00:02,000\nHello\n\n2\n00:02:01,000 --> 00:02:03,000\nWorld" := by
  with_unfolding_all decide
example : merge_srt_files [] [] = "" := by with_unfolding_all decide
example : split_audio 700000 300000 =
    .ok ([(0, 300000), (300000, 600000), (600000, 700000)], [0, 300, 600]) := by
  with_unfolding_all decide
example : split_audio 700000 (-1) = .ok ([], []) := by with_unfolding_all decide

theorem digitChar_isDigit (d : ℕ) : (digitChar d).isDigit := by
  unfold digitChar
  split <;> decide

theorem natCharsAux_digits :
    ∀ (fuel n : ℕ) (acc : List Char), (∀ c ∈ acc, c.isDigit) →
      ∀ c ∈ natCharsAux fuel n acc, c.isDigit := by
  intro fuel
  induction fuel with
  | zero => intro n acc h; simpa [natCharsAux] using h
  | succ fuel ih =>
    intro n acc h c hc
    by_cases hn : n < 10
    · simp only [natCharsAux, if_pos hn, List.mem_cons] at hc
      rcases hc with rfl | hc
      · exact digitChar_isDigit n
      · exact h c hc
    · simp only [natCharsAux, if_neg hn] at hc
      refine ih (n / 10) (digitChar (n % 10) :: acc) ?_ c hc
      intro c' hc'
      rcases List.mem_cons.mp hc' with rfl | hc'
      · exact digitChar_isDigit _
      · exact h c' hc'

theorem natChars_digits (n : ℕ) : ∀ c ∈ natChars n, c.isDigit :=
  natCharsAux_digits (n + 1) n [] (by simp)

theorem natCharsAux_succ (fuel n : ℕ) (acc : List Char) :
    natCharsAux (fuel + 1) n acc =
      if n < 10 then digitChar n :: acc
      else natCharsAux fuel (n / 10) (digitChar (n % 10) :: acc) := rfl

theorem natCharsAux_length :
    ∀ (fuel n : ℕ) (acc : List Char),
      acc.length + 1 ≤ (natCharsAux (fuel + 1) n acc).length := by
  intro fuel
  induction fuel with
  | zero =>
    intro n acc
    rw [natCharsAux_succ]
    by_cases hn : n < 10
    · simp [hn]
    · simp [natCharsAux, hn]
  | succ fuel ih =>
    intro n acc
    rw [natCharsAux_succ]
    by_cases hn : n < 10
    · simp [hn]
    · rw [if_neg hn]
      have h1 := ih (n / 10) (digitChar (n % 10) :: acc)
      simp only [List.length_cons] at h1
      omega

theorem natChars_ne_nil (n : ℕ) : natChars n ≠ [] := by
  have := natCharsAux_length n n []
  intro h
  rw [natChars] at h
  rw [h] at this
  simp at this

theorem splitNAux_cons0 (acc : List Char) (c : Char) (rest : List Char) (hc : c ≠ '\n') :
    splitNAux acc (c :: rest) = splitNAux (c :: acc) rest := by
  simp [splitNAux, hc]

theorem splitNAux_no_nl :
    ∀ (cs acc : List Char), (∀ c ∈ acc, c ≠ '\n') →
      ∀ s ∈ splitNAux acc cs, ∀ c ∈ s, c ≠ '\n' := by
  intro cs
  induction cs with
  | nil =>
    intro acc h s hs
    simp only [splitNAux, List.mem_singleton] at hs
    subst hs
    intro c hc
    exact h c (List.mem_reverse.mp hc)
  | cons c0 rest ih =>
    intro acc h s hs
    by_cases hc0 : c0 = '\n'
    · subst hc0
      simp only [splitNAux, List.mem_cons] at hs
      rcases hs with rfl | hs
      · intro c hc
        exact h c (List.mem_reverse.mp hc)
      · exact ih [] (by simp) s hs
    · rw [splitNAux_cons0 acc c0 rest hc0] at hs
      refine ih (c0 :: acc) ?_ s hs
      intro c' hc'
      rcases List.mem_cons.mp hc' with rfl | hc'
      · exact hc0
      · exact h c' hc'

theorem tryMatch_self_append {cs w rest : List Char} (h : tryMatch cs = some (w, rest)) :
    ∀ ys, tryMatch (w ++ ys) = some (w, ys) := by
  match cs with
  | [] => simp [tryMatch] at h
  | [c1] | [c1, c2] | [c1, c2, c3] | [c1, c2, c3, c4] | [c1, c2, c3, c4, c5]
  | [c1, c2, c3, c4, c5, c6] | [c1, c2, c3, c4, c5, c6, c7]
  | [c1, c2, c3, c4, c5, c6, c7, c8] | [c1, c2, c3, c4, c5, c6, c7, c8, c9]
  | [c1, c2, c3, c4, c5, c6, c7, c8, c9, c10]
  | [c1, c2, c3, c4, c5, c6, c7, c8, c9, c10, c11] => simp [tryMatch] at h
  | c1 :: c2 :: c3 :: c4 :: c5 :: c6 :: c7 :: c8 :: c9 :: c10 :: c11 :: c12 :: r =>
    rw [tryMatch] at h
    by_cases hts : isTs12 c1 c2 c3 c4 c5 c6 c7 c8 c9 c10 c11 c12
    · rw [if_pos hts] at h
      obtain ⟨hw, hr⟩ := Prod.mk.injEq .. ▸ Option.some.injEq .. ▸ h
      subst hw
      intro ys
      show tryMatch (c1 :: c2 :: c3 :: c4 :: c5 :: c6 :: c7 :: c8 :: c9 :: c10 :: c11 :: c12 ::
        ys) = _
      rw [tryMatch, if_pos hts]
    · rw [if_neg hts] at h
      exact absurd h (by simp)

theorem breakN_nil : breakN [] = none := rfl

theorem breakN_nl (r : List Char) : breakN ('\n' :: r) = some ([], r) := rfl

theorem breakN_cons_ne {c : Char} (hc : c ≠ '\n') (r : List Char) :
    breakN (c :: r) = (breakN r).map (fun p => (c :: p.1, p.2)) := by
  simp [breakN, hc]

theorem breakNN_nil : breakNN [] = none := rfl

theorem breakNN_nlnl (r : List Char) : breakNN ('\n' :: '\n' :: r) = some ([], r) := rfl

theorem breakNN_cons_ne {c : Char} (hc : c ≠ '\n') (r : List Char) :
    breakNN (c :: r) = (breakNN r).map (fun p => (c :: p.1, p.2)) := by
  cases r with
  | nil => simp [breakNN, hc]
  | cons d r' =>
    by_cases hd : d = '\n'
    · subst hd
      simp [breakNN, hc]
    · simp [breakNN, hc, hd]

theorem breakNN_nl_of_head {X : List Char} (hX : ¬X.head? = some '\n') :
    breakNN ('\n' :: X) = (breakNN X).map (fun p => ('\n' :: p.1, p.2)) := by
  cases X with
  | nil => rfl
  | cons e X' =>
    have he : e ≠ '\n' := by
      intro hcon
      subst hcon
      simp at hX
    simp [breakNN, he]

theorem breakN_some :
    ∀ {cs a b : List Char}, breakN cs = some (a, b) →
      cs = a ++ '\n' :: b ∧ ∀ c ∈ a, c ≠ '\n' := by
  intro cs
  induction cs with
  | nil => intro a b h; simp [breakN] at h
  | cons c r ih =>
    intro a b h
    by_cases hc : c = '\n'
    · subst hc
      rw [breakN_nl] at h
      simp only [Option.some.injEq, Prod.mk.injEq] at h
      obtain ⟨ha, hb⟩ := h
      subst ha
      subst hb
      exact ⟨rfl, by simp⟩
    · rw [breakN_cons_ne hc] at h
      rcases hbr : breakN r with - | ⟨a', b'⟩
      · rw [hbr] at h
        simp at h
      · rw [hbr] at h
        simp only [Option.map_some', Option.some.injEq, Prod.mk.injEq] at h
        obtain ⟨ha, hb⟩ := h
        subst ha
        subst hb
        obtain ⟨hdec, hmem⟩ := ih hbr
        refine ⟨by rw [hdec]; rfl, ?_⟩
        intro x hx
        rcases List.mem_cons.mp hx with rfl | hx
        · exact hc
        · exact hmem x hx

theorem breakNN_some :
    ∀ {cs a b : List Char}, breakNN cs = some (a, b) → cs = a ++ '\n' :: '\n' :: b := by
  intro cs
  induction cs with
  | nil => intro a b h; simp [breakNN] at h
  | cons c r ih =>
    intro a b h
    by_cases hc : c = '\n'
    · subst hc
      cases r with
      | nil =>
        rw [show breakNN ['\n'] = ((breakNN []).map (fun p => ('\n' :: p.1, p.2))) from rfl] at h
        simp [breakNN] at h
      | cons d r' =>
        by_cases hd : d = '\n'
        · subst hd
          rw [breakNN_nlnl] at h
          simp only [Option.some.injEq, Prod.mk.injEq] at h
          obtain ⟨ha, hb⟩ := h
          subst ha
          subst hb
          rfl
        · rw [breakNN_nl_of_head (by simp [hd])] at h
          rcases hbr : breakNN (d :: r') with - | ⟨a', b'⟩
          · rw [hbr] at h
            simp at h
          · rw [hbr] at h
            simp only [Option.map_some', Option.some.injEq, Prod.mk.injEq] at h
            obtain ⟨ha, hb⟩ := h
            subst ha
            subst hb
            rw [ih hbr]
            rfl
    · rw [breakNN_cons_ne hc] at h
      rcases hbr : breakNN r with - | ⟨a', b'⟩
      · rw [hbr] at h
        simp at h
      · rw [hbr] at h
        simp only [Option.map_some', Option.some.injEq, Prod.mk.injEq] at h
        obtain ⟨ha, hb⟩ := h
        subst ha
        subst hb
        rw [ih hbr]
        rfl

theorem breakN_skip {a : List Char} (ha : ∀ c ∈ a, c ≠ '\n') (r : List Char) :
    breakN (a ++ r) = (breakN r).map (fun p => (a ++ p.1, p.2)) := by
  induction a with
  | nil =>
    rcases hbr : breakN r with - | p <;> simp [hbr]
  | cons c a' ih =>
    have hc : c ≠ '\n' := ha c (by simp)
    rw [List.cons_append, breakN_cons_ne hc, ih (fun x hx => ha x (by simp [hx]))]
    rcases hbr : breakN r with - | p <;> simp [hbr]

theorem breakNN_skip {a : List Char} (ha : ∀ c ∈ a, c ≠ '\n') (r : List Char) :
    breakNN (a ++ r) = (breakNN r).map (fun p => (a ++ p.1, p.2)) := by
  induction a with
  | nil =>
    rcases hbr : breakNN r with - | p <;> simp [hbr]
  | cons c a' ih =>
    have hc : c ≠ '\n' := ha c (by simp)
    rw [List.cons_append, breakNN_cons_ne hc, ih (fun x hx => ha x (by simp [hx]))]
    rcases hbr : breakNN r with - | p <;> simp [hbr]

theorem splitNAux_nil (acc : List Char) : splitNAux acc [] = [acc.reverse] := rfl

theorem splitNAux_nl (acc rest : List Char) :
    splitNAux acc ('\n' :: rest) = acc.reverse :: splitNAux [] rest := rfl

theorem splitNAux_no_sep :
    ∀ (x acc : List Char), (∀ c ∈ x, c ≠ '\n') → splitNAux acc x = [acc.reverse ++ x] := by
  intro x
  induction x with
  | nil => intro acc h; simp [splitNAux]
  | cons c r ih =>
    intro acc h
    rw [splitNAux_cons0 acc c r (h c (by simp)), ih (c :: acc) (fun c' hc' => h c' (by simp [hc']))]
    simp

theorem splitNAux_sep_append :
    ∀ (x acc r : List Char), (∀ c ∈ x, c ≠ '\n') →
      splitNAux acc (x ++ '\n' :: r) = (acc.reverse ++ x) :: splitNAux [] r := by
  intro x
  induction x with
  | nil => intro acc r h; simp [splitNAux_nl]
  | cons c y ih =>
    intro acc r h
    rw [List.cons_append, splitNAux_cons0 acc c _ (h c (by simp)),
      ih (c :: acc) r (fun c' hc' => h c' (by simp [hc']))]
    simp

theorem splitN_no_nl (cs : List Char) : ∀ s ∈ splitN cs, ∀ c ∈ s, c ≠ '\n' :=
  splitNAux_no_nl cs [] (by simp)

theorem splitNAux_length_pos : ∀ (cs acc : List Char), 1 ≤ (splitNAux acc cs).length := by
  intro cs
  induction cs with
  | nil => intro acc; simp [splitNAux]
  | cons c rest ih =>
    intro acc
    by_cases hc : c = '\n'
    · subst hc; simp [splitNAux_nl]
    · rw [splitNAux_cons0 acc c rest hc]; exact ih (c :: acc)

theorem joinN_cons_cons (x y : List Char) (tl : List (List Char)) :
    joinN (x :: y :: tl) = x ++ '\n' :: joinN (y :: tl) := rfl

theorem splitN_joinN :
    ∀ xs : List (List Char), xs ≠ [] → (∀ x ∈ xs, ∀ c ∈ x, c ≠ '\n') →
      splitN (joinN xs) = xs := by
  intro xs
  induction xs with
  | nil => intro h; exact absurd rfl h
  | cons x tl ih =>
    intro _ h
    cases tl with
    | nil =>
      show splitN x = [x]
      have := splitNAux_no_sep x [] (h x (by simp))
      simpa [splitN] using this
    | cons y tl2 =>
      rw [joinN_cons_cons, splitN, splitNAux_sep_append x [] _ (h x (by simp))]
      have htl : splitNAux [] (joinN (y :: tl2)) = y :: tl2 := by
        have := ih (by simp) (fun x' hx' => h x' (by simp [hx']))
        simpa [splitN] using this
      rw [htl]
      simp

theorem numberFrom_append :
    ∀ (xs ys : List (List Char)) (k : ℕ),
      numberFrom k (xs ++ ys) = numberFrom k xs ++ numberFrom (k + xs.length) ys := by
  intro xs
  induction xs with
  | nil => intro ys k; simp [numberFrom]
  | cons b tl ih =>
    intro ys k
    simp only [List.cons_append, numberFrom, List.length_cons, List.append_eq]
    rw [ih ys (k + 1)]
    have h : k + 1 + tl.length = k + (tl.length + 1) := by omega
    rw [h]

theorem numberFrom_length :
    ∀ (l : List (List Char)) (k : ℕ), (numberFrom k l).length = l.length := by
  intro l
  induction l with
  | nil => intro k; simp [numberFrom]
  | cons b tl ih => intro k; simp [numberFrom, ih (k + 1)]

theorem numberFrom_getElem? :
    ∀ (l : List (List Char)) (k i : ℕ),
      (numberFrom k l)[i]? = l[i]?.map (fun b => blockOut (k + i) b) := by
  intro l
  induction l with
  | nil => intro k i; simp [numberFrom]
  | cons b tl ih =>
    intro k i
    cases i with
    | zero => simp [numberFrom]
    | succ i =>
      simp only [numberFrom, List.getElem?_cons_succ, ih (k + 1) i]
      have : k + 1 + i = k + (i + 1) := by omega
      rw [this]

theorem mem_numberFrom :
    ∀ (l : List (List Char)) (k : ℕ) (b : List Char),
      b ∈ numberFrom k l → ∃ j s, s ∈ l ∧ b = blockOut j s := by
  intro l
  induction l with
  | nil => intro k b h; simp [numberFrom] at h
  | cons x tl ih =>
    intro k b h
    rcases List.mem_cons.mp h with rfl | h
    · exact ⟨k, x, by simp⟩
    · obtain ⟨j, s, hs, hb⟩ := ih (k + 1) b h
      exact ⟨j, s, by simp [hs], hb⟩

theorem keepBlock_iff (b : List Char) :
    keepBlock b = true ↔ pyStrip b ≠ [] ∧ 3 ≤ (splitN (pyStrip b)).length := by
  simp [keepBlock, List.isEmpty_iff]

theorem processBlocks_cons (idx : ℕ) (b : List Char) (bs : List (List Char)) :
    processBlocks idx (b :: bs) =
      if pyStrip b ≠ [] then
        if 3 ≤ (splitN (pyStrip b)).length then
          (joinN (natChars idx :: (splitN (pyStrip b)).tail) :: (processBlocks (idx + 1) bs).1,
            (processBlocks (idx + 1) bs).2)
        else processBlocks idx bs
      else processBlocks idx bs := rfl

theorem processBlocks_spec :
    ∀ (bs : List (List Char)) (idx : ℕ),
      processBlocks idx bs =
        (numberFrom idx (bs.filter keepBlock), idx + (bs.filter keepBlock).length) := by
  intro bs
  induction bs with
  | nil => intro idx; simp [processBlocks, numberFrom]
  | cons b tl ih =>
    intro idx
    rw [processBlocks_cons]
    by_cases h1 : pyStrip b ≠ []
    · by_cases h2 : 3 ≤ (splitN (pyStrip b)).length
      · have hk : keepBlock b = true := (keepBlock_iff b).mpr ⟨h1, h2⟩
        rw [if_pos h1, if_pos h2, ih (idx + 1)]
        simp only [List.filter_cons, hk, if_pos]
        simp only [numberFrom, List.length_cons, Prod.mk.injEq]
        exact ⟨rfl, by omega⟩
      · have hk : keepBlock b = false := by
          rw [← Bool.not_eq_true]
          intro hcon
          exact h2 ((keepBlock_iff b).mp hcon).2
        rw [if_pos h1, if_neg h2, ih idx]
        simp [List.filter_cons, hk]
    · have hk : keepBlock b = false := by
        rw [← Bool.not_eq_true]
        intro hcon
        exact h1 ((keepBlock_iff b).mp hcon).1
      rw [if_neg h1, ih idx]
      simp [List.filter_cons, hk]

theorem mergeAux_cons (idx : ℕ) (c : String) (t : ℚ) (rest : List (String × ℚ)) :
    mergeAux idx ((c, t) :: rest) =
      (processBlocks idx (splitNN (pyStrip (adjust_srt_timestamps c t).data))).1 ++
        mergeAux (processBlocks idx (splitNN (pyStrip (adjust_srt_timestamps c t).data))).2
          rest := rfl

theorem survivors_cons (c : String) (t : ℚ) (rest : List (String × ℚ)) :
    survivors ((c, t) :: rest) =
      (splitNN (pyStrip (adjust_srt_timestamps c t).data)).filter keepBlock ++
        survivors rest := by
  simp [survivors]

theorem mergeAux_spec :
    ∀ (pairs : List (String × ℚ)) (idx : ℕ),
      mergeAux idx pairs = numberFrom idx (survivors pairs) := by
  intro pairs
  induction pairs with
  | nil => intro idx; simp [mergeAux, survivors, numberFrom]
  | cons p tl ih =>
    intro idx
    obtain ⟨c, t⟩ := p
    rw [mergeAux_cons, processBlocks_spec, survivors_cons, numberFrom_append]
    simp only []
    rw [ih]

theorem natLog2Aux_bounds :
    ∀ (fuel n : ℕ), 1 ≤ n → n ≤ fuel →
      2 ^ natLog2Aux fuel n ≤ n ∧ n < 2 ^ (natLog2Aux fuel n + 1) := by
  intro fuel
  induction fuel with
  | zero => intro n h1 h2; omega
  | succ fuel ih =>
    intro n h1 h2
    by_cases hn : 2 ≤ n
    · obtain ⟨hr1, hr2⟩ := ih (n / 2) (by omega) (by omega)
      simp only [natLog2Aux, if_pos hn]
      constructor
      · calc 2 ^ (natLog2Aux fuel (n / 2) + 1) = 2 * 2 ^ natLog2Aux fuel (n / 2) := by ring
        _ ≤ n := by omega
      · calc n < 2 * (n / 2) + 2 := by omega
        _ ≤ 2 * 2 ^ (natLog2Aux fuel (n / 2) + 1) := by omega
        _ = 2 ^ (natLog2Aux fuel (n / 2) + 1 + 1) := by ring
    · have hn1 : n = 1 := by omega
      subst hn1
      simp [natLog2Aux]

theorem natLog2_bounds (n : ℕ) (h : 1 ≤ n) :
    2 ^ natLog2 n ≤ n ∧ n < 2 ^ (natLog2 n + 1) :=
  natLog2Aux_bounds n n h le_rfl

theorem twoZpow_eq_zpow (e : ℤ) : twoZpow e = (2 : ℚ) ^ e := by
  unfold twoZpow
  by_cases he : 0 ≤ e
  · rw [if_pos he]
    push_cast
    rw [← zpow_natCast (2 : ℚ) e.toNat, Int.toNat_of_nonneg he]
  · rw [if_neg he]
    push_cast
    rw [one_div, ← zpow_natCast (2 : ℚ) (-e).toNat, Int.toNat_of_nonneg (by omega), ← zpow_neg,
      neg_neg]

theorem floorLog2_spec (q : ℚ) (hq : 0 < q) :
    twoZpow (floorLog2 q) ≤ q ∧ q < twoZpow (floorLog2 q + 1) := by
  have hnum : 0 < q.num := Rat.num_pos.mpr hq
  have hn1 : 1 ≤ q.num.toNat := by omega
  have hd1 : 1 ≤ q.den := q.pos
  obtain ⟨ha1, ha2⟩ := natLog2_bounds q.num.toNat hn1
  obtain ⟨hb1, hb2⟩ := natLog2_bounds q.den hd1
  have hdpos : (0 : ℚ) < (q.den : ℚ) := by exact_mod_cast q.pos
  have hqeq : q = (q.num.toNat : ℚ) / (q.den : ℚ) := by
    have h1 : ((q.num.toNat : ℕ) : ℚ) = ((q.num : ℤ) : ℚ) := by
      exact_mod_cast Int.toNat_of_nonneg hnum.le
    rw [h1, Rat.num_div_den]
  simp only [floorLog2]
  set a := natLog2 q.num.toNat with ha
  set b := natLog2 q.den with hb
  have hup : q < (2 : ℚ) ^ ((a : ℤ) - b + 1) := by
    have hnat : q.num.toNat * 2 ^ b < 2 ^ (a + 1) * q.den := by
      calc q.num.toNat * 2 ^ b < 2 ^ (a + 1) * 2 ^ b :=
            (Nat.mul_lt_mul_right (by positivity)).mpr ha2
      _ ≤ 2 ^ (a + 1) * q.den := Nat.mul_le_mul le_rfl hb1
    have he : ((a : ℤ) - b + 1) = ((a + 1 : ℕ) : ℤ) - ((b : ℕ) : ℤ) := by push_cast; ring
    rw [he, zpow_sub₀ (two_ne_zero), zpow_natCast, zpow_natCast, hqeq,
      div_lt_div_iff₀ hdpos (by positivity)]
    exact_mod_cast hnat
  have hlo : (2 : ℚ) ^ ((a : ℤ) - b - 1) < q := by
    have hnat : 2 ^ a * q.den < q.num.toNat * 2 ^ (b + 1) := by
      calc 2 ^ a * q.den ≤ q.num.toNat * q.den := Nat.mul_le_mul ha1 le_rfl
      _ < q.num.toNat * 2 ^ (b + 1) := (Nat.mul_lt_mul_left (by omega)).mpr hb2
    have he : ((a : ℤ) - b - 1) = ((a : ℕ) : ℤ) - ((b + 1 : ℕ) : ℤ) := by push_cast; ring
    rw [he, zpow_sub₀ (two_ne_zero), zpow_natCast, zpow_natCast, hqeq,
      div_lt_div_iff₀ (by positivity) hdpos]
    exact_mod_cast hnat
  by_cases hc : twoZpow ((a : ℤ) - b) ≤ q
  · rw [if_pos hc]
    refine ⟨hc, ?_⟩
    rw [twoZpow_eq_zpow]
    exact hup
  · rw [if_neg hc]
    constructor
    · rw [twoZpow_eq_zpow]
      exact hlo.le
    · have he : (a : ℤ) - b - 1 + 1 = (a : ℤ) - b := by ring
      rw [he]
      exact lt_of_not_le hc

theorem rne_intCast (n : ℤ) : rne (n : ℚ) = n := by
  simp only [rne, Int.floor_intCast, sub_self]
  norm_num

theorem roundPos_eq_self (q : ℚ) (h : ∃ k : ℤ, q * twoZpow (52 - floorLog2 q) = (k : ℚ)) :
    roundPos q = q := by
  obtain ⟨k, hk⟩ := h
  have h2 : (2 : ℚ) ≠ 0 := two_ne_zero
  have hdiv : q / twoZpow (floorLog2 q - 52) = q * twoZpow (52 - floorLog2 q) := by
    rw [twoZpow_eq_zpow, twoZpow_eq_zpow, div_eq_mul_inv, ← zpow_neg]
    ring_nf
  rw [roundPos, hdiv, hk, rne_intCast, ← hk, twoZpow_eq_zpow, twoZpow_eq_zpow, mul_assoc,
    ← zpow_add₀ h2]
  simp

theorem roundD_dyadic (n j : ℕ) (hn : n < 2 ^ 53) :
    roundD ((n : ℚ) / 2 ^ j) = (n : ℚ) / 2 ^ j := by
  rcases Nat.eq_zero_or_pos n with rfl | hpos
  · simp [roundD]
  · have hq : (0 : ℚ) < (n : ℚ) / 2 ^ j := by positivity
    have hne : ((n : ℚ) / 2 ^ j) ≠ 0 := ne_of_gt hq
    rw [roundD, if_neg hne, if_pos hq]
    set q : ℚ := (n : ℚ) / 2 ^ j with hqdef
    set e : ℤ := floorLog2 q with he
    have hjz : ((2 : ℚ) ^ (j : ℤ)) = ((2 : ℚ) ^ (j : ℕ)) := zpow_natCast 2 j
    have h53 : ((2 : ℚ) ^ ((53 : ℕ) : ℤ)) = ((2 : ℚ) ^ (53 : ℕ)) := zpow_natCast 2 53
    have hub : q < (2 : ℚ) ^ (((53 : ℕ) : ℤ) - j) := by
      have hn' : (n : ℚ) < (2 : ℚ) ^ (53 : ℕ) := by exact_mod_cast hn
      calc q = (n : ℚ) / (2 : ℚ) ^ (j : ℤ) := by rw [hjz]
      _ < (2 : ℚ) ^ ((53 : ℕ) : ℤ) / (2 : ℚ) ^ (j : ℤ) := by
          rw [hjz, h53]
          gcongr
      _ = (2 : ℚ) ^ (((53 : ℕ) : ℤ) - j) := by rw [← zpow_sub₀ (two_ne_zero)]
    have hlbe := (floorLog2_spec q hq).1
    rw [twoZpow_eq_zpow, ← he] at hlbe
    have hee : e < ((53 : ℕ) : ℤ) - j := by
      by_contra hcon
      push_neg at hcon
      have : (2 : ℚ) ^ (((53 : ℕ) : ℤ) - j) ≤ (2 : ℚ) ^ e :=
        zpow_le_zpow_right₀ (by norm_num) hcon
      linarith
    have hexp : (0 : ℤ) ≤ 52 - e - j := by
      have : ((53 : ℕ) : ℤ) = 53 := rfl
      omega
    have hcancel : (n : ℚ) / 2 ^ j * 2 ^ j = (n : ℚ) :=
      div_mul_cancel₀ _ (by positivity)
    have hkey : q * twoZpow (52 - e) = (((n : ℤ) * 2 ^ (52 - e - j).toNat : ℤ) : ℚ) := by
      have h52 : (52 : ℤ) - e = (52 - e - j) + j := by ring
      rw [twoZpow_eq_zpow, h52, zpow_add₀ (two_ne_zero : (2 : ℚ) ≠ 0), hjz]
      have hstep : q * ((2 : ℚ) ^ (52 - e - j) * (2 : ℚ) ^ (j : ℕ)) =
          (n : ℚ) * (2 : ℚ) ^ (52 - e - j) := by
        rw [hqdef]
        calc (n : ℚ) / 2 ^ j * ((2 : ℚ) ^ (52 - e - j) * (2 : ℚ) ^ (j : ℕ)) =
            ((n : ℚ) / 2 ^ j * 2 ^ j) * (2 : ℚ) ^ (52 - e - j) := by ring
        _ = (n : ℚ) * (2 : ℚ) ^ (52 - e - j) := by rw [hcancel]
      rw [hstep, ← Int.toNat_of_nonneg hexp, zpow_natCast]
      push_cast
      simp
    refine roundPos_eq_self q ⟨(n : ℤ) * 2 ^ (52 - e - j).toNat, ?_⟩
    rw [← he]
    exact hkey

theorem roundD_natCast (n : ℕ) (hn : n < 2 ^ 53) : roundD (n : ℚ) = n := by
  have := roundD_dyadic n 0 hn
  simpa using this

theorem floor_div_nat (q : ℚ) (y d : ℕ) (hy : 0 < y) (h1 : ((d * y : ℕ) : ℚ) ≤ q)
    (h2 : q < (((d + 1) * y : ℕ) : ℚ)) : ⌊q / (y : ℚ)⌋ = (d : ℤ) := by
  have hy' : (0 : ℚ) < (y : ℚ) := by exact_mod_cast hy
  rw [Int.floor_eq_iff]
  constructor
  · rw [le_div_iff₀ hy']
    push_cast at h1 ⊢
    linarith
  · rw [div_lt_iff₀ hy']
    push_cast at h2 ⊢
    linarith

theorem pyMod_floor (x y : ℚ) (hy : 0 < y) (hx : 0 ≤ x) :
    pyMod x y = x - (⌊x / y⌋ : ℚ) * y := by
  have hq : 0 ≤ x / y := div_nonneg hx hy.le
  have hfloor : pyTrunc (x / y) = ⌊x / y⌋ := by rw [pyTrunc, if_pos hq]
  have hm : (0 : ℚ) ≤ x - (⌊x / y⌋ : ℚ) * y := by
    have h1 : (⌊x / y⌋ : ℚ) ≤ x / y := Int.floor_le _
    have h2 : (⌊x / y⌋ : ℚ) * y ≤ x := by
      rw [← le_div_iff₀ hy]
      exact h1
    linarith
  have hcond : ¬((x - (⌊x / y⌋ : ℚ) * y ≠ 0) ∧
      ¬((x - (⌊x / y⌋ : ℚ) * y < 0) ↔ (y < 0))) := by
    rintro ⟨h1, h2⟩
    exact h2 ⟨fun hh => absurd hh (not_lt.mpr hm), fun hh => absurd hh (not_lt.mpr hy.le)⟩
  simp only [pyMod, hfloor]
  rw [if_neg hcond]

theorem adjustCore_mult125 (h m s k : ℕ) (hh : h ≤ 99) (hm : m ≤ 59) (hs : s ≤ 59)
    (hk : k ≤ 7) :
    adjustTimestampCore 0 h m s (125 * k) = ((h : ℤ), (m : ℤ), (s : ℤ), ((125 * k : ℕ) : ℤ)) := by
  have hmQ : (m : ℚ) ≤ 59 := by exact_mod_cast hm
  have hsQ : (s : ℚ) ≤ 59 := by exact_mod_cast hs
  have hkQ : (k : ℚ) ≤ 7 := by exact_mod_cast hk
  have hk8 : (0 : ℚ) ≤ (k : ℚ) / 8 := by positivity
  have hk8lt : (k : ℚ) / 8 < 1 := by linarith
  have hms : roundD (((125 * k : ℕ) : ℚ) / 1000) = (k : ℚ) / 2 ^ 3 := by
    have h1 : ((125 * k : ℕ) : ℚ) / 1000 = (k : ℚ) / 2 ^ 3 := by
      push_cast
      ring
    rw [h1, roundD_dyadic k 3 (by omega)]
  have htot0 : roundD (((h * 3600 + m * 60 + s : ℕ) : ℚ) + (k : ℚ) / 2 ^ 3) =
      ((8 * (h * 3600 + m * 60 + s) + k : ℕ) : ℚ) / 2 ^ 3 := by
    have h1 : ((h * 3600 + m * 60 + s : ℕ) : ℚ) + (k : ℚ) / 2 ^ 3 =
        ((8 * (h * 3600 + m * 60 + s) + k : ℕ) : ℚ) / 2 ^ 3 := by
      push_cast
      ring
    rw [h1, roundD_dyadic (8 * (h * 3600 + m * 60 + s) + k) 3 (by omega)]
  have hqval : ((8 * (h * 3600 + m * 60 + s) + k : ℕ) : ℚ) / 2 ^ 3 =
      (h : ℚ) * 3600 + (m : ℚ) * 60 + (s : ℚ) + (k : ℚ) / 8 := by
    push_cast
    ring
  set q : ℚ := ((8 * (h * 3600 + m * 60 + s) + k : ℕ) : ℚ) / 2 ^ 3 with hqdef
  have hq0 : (0 : ℚ) ≤ q := by positivity
  have htot : roundD (roundD (((h * 3600 + m * 60 + s : ℕ) : ℚ) +
      roundD (((125 * k : ℕ) : ℚ) / 1000)) + 0) = q := by
    rw [hms, htot0, add_zero, roundD_dyadic (8 * (h * 3600 + m * 60 + s) + k) 3 (by omega)]
  have c1 : ⌊q / (3600 : ℚ)⌋ = (h : ℤ) := by
    have := floor_div_nat q 3600 h (by omega) (by rw [hqval]; push_cast; linarith)
      (by rw [hqval]; push_cast; linarith)
    exact_mod_cast this
  have c2 : pyMod q 3600 = (m : ℚ) * 60 + (s : ℚ) + (k : ℚ) / 8 := by
    rw [pyMod_floor q 3600 (by norm_num) hq0]
    rw [show ((3600 : ℚ)) = ((3600 : ℕ) : ℚ) by norm_num] at c1 ⊢
    rw [c1, hqval]
    push_cast
    ring
  have c3 : ⌊pyMod q 3600 / (60 : ℚ)⌋ = (m : ℤ) := by
    rw [c2]
    have := floor_div_nat ((m : ℚ) * 60 + (s : ℚ) + (k : ℚ) / 8) 60 m (by omega)
      (by push_cast; linarith) (by push_cast; linarith)
    exact_mod_cast this
  have c4 : pyTrunc (pyMod q 60) = (s : ℤ) := by
    have hfl : ⌊q / (60 : ℚ)⌋ = ((60 * h + m : ℕ) : ℤ) := by
      have := floor_div_nat q 60 (60 * h + m) (by omega) (by rw [hqval]; push_cast; linarith)
        (by rw [hqval]; push_cast; linarith)
      exact_mod_cast this
    rw [pyMod_floor q 60 (by norm_num) hq0]
    rw [show ((60 : ℚ)) = ((60 : ℕ) : ℚ) by norm_num] at hfl ⊢
    rw [hfl, hqval]
    have hval : (h : ℚ) * 3600 + (m : ℚ) * 60 + (s : ℚ) + (k : ℚ) / 8 -
        (((60 * h + m : ℕ) : ℤ) : ℚ) * ((60 : ℕ) : ℚ) = (s : ℚ) + (k : ℚ) / 8 := by
      push_cast
      ring
    rw [hval, pyTrunc, if_pos (by positivity)]
    have : ⌊(s : ℚ) + (k : ℚ) / 8⌋ = (s : ℤ) := by
      rw [Int.floor_eq_iff]
      constructor
      · push_cast
        linarith
      · push_cast
        linarith
    exact this
  have c5 : pyTrunc (roundD (pyMod q 1 * 1000)) = ((125 * k : ℕ) : ℤ) := by
    have hfl : ⌊q / (1 : ℚ)⌋ = ((h * 3600 + m * 60 + s : ℕ) : ℤ) := by
      have := floor_div_nat q 1 (h * 3600 + m * 60 + s) (by omega)
        (by rw [hqval]; push_cast; linarith) (by rw [hqval]; push_cast; linarith)
      exact_mod_cast this
    have hmod1 : pyMod q 1 = (k : ℚ) / 8 := by
      rw [pyMod_floor q 1 (by norm_num) hq0]
      simp only [div_one, mul_one]
      have hfl' : ⌊q⌋ = ((h * 3600 + m * 60 + s : ℕ) : ℤ) := by simpa using hfl
      rw [hfl', hqval]
      push_cast
      ring
    have hmul : (k : ℚ) / 8 * 1000 = ((125 * k : ℕ) : ℚ) := by
      push_cast
      ring
    rw [hmod1, hmul, roundD_natCast (125 * k) (by omega), pyTrunc,
      if_pos (by positivity), Int.floor_natCast]
  simp only [adjustTimestampCore]
  rw [htot]
  exact Prod.ext c1 (Prod.ext c3 (Prod.ext c4 c5))

/-- C6 (amended): the parse/format round trip of the timestamp codec is
the identity on every valid timestamp whose millisecond component is a
multiple of 125 — exactly those whose fractional-seconds value is a
representable binary64 — while other millisecond values can drift by one
millisecond under double rounding (see the counterexample). -/
theorem C6_roundtrip_exact :
    ∀ (h m s k : ℕ), h ≤ 99 → m ≤ 59 → s ≤ 59 → k ≤ 7 →
      replTimestamp 0 h m s (125 * k) = renderTs h m s (125 * k) := by
  intro h m s k hh hm hs hk
  rw [replTimestamp, adjustCore_mult125 h m s k hh hm hs hk]
  rfl

/-- C6 witness: the exact round trip evaluated at 00:59:59,125. -/
theorem C6_roundtrip_exact_witness :
    ((0 : ℕ) ≤ 99 ∧ (59 : ℕ) ≤ 59 ∧ (59 : ℕ) ≤ 59 ∧ (1 : ℕ) ≤ 7) ∧
      replTimestamp 0 0 59 59 (125 * 1) = renderTs 0 59 59 (125 * 1) :=
  ⟨by decide, C6_roundtrip_exact 0 59 59 1 (by decide) (by decide) (by decide) (by decide)⟩

theorem tryMatch_some_shape {cs w rest : List Char} (h : tryMatch cs = some (w, rest)) :
    cs = w ++ rest ∧ w.length = 12 ∧ ∀ c ∈ w, pAlpha c = true := by
  match cs with
  | [] => simp [tryMatch] at h
  | [c1] | [c1, c2] | [c1, c2, c3] | [c1, c2, c3, c4] | [c1, c2, c3, c4, c5]
  | [c1, c2, c3, c4, c5, c6] | [c1, c2, c3, c4, c5, c6, c7]
  | [c1, c2, c3, c4, c5, c6, c7, c8] | [c1, c2, c3, c4, c5, c6, c7, c8, c9]
  | [c1, c2, c3, c4, c5, c6, c7, c8, c9, c10]
  | [c1, c2, c3, c4, c5, c6, c7, c8, c9, c10, c11] => simp [tryMatch] at h
  | c1 :: c2 :: c3 :: c4 :: c5 :: c6 :: c7 :: c8 :: c9 :: c10 :: c11 :: c12 :: r =>
    rw [tryMatch] at h
    by_cases hts : isTs12 c1 c2 c3 c4 c5 c6 c7 c8 c9 c10 c11 c12
    · rw [if_pos hts] at h
      obtain ⟨hw, hr⟩ := Prod.mk.injEq .. ▸ Option.some.injEq .. ▸ h
      subst hw
      subst hr
      refine ⟨rfl, rfl, ?_⟩
      simp only [isTs12, Bool.and_eq_true, beq_iff_eq] at hts
      obtain ⟨⟨⟨⟨⟨⟨⟨⟨⟨⟨⟨h1, h2⟩, h3⟩, h4⟩, h5⟩, h6⟩, h7⟩, h8⟩, h9⟩, h10⟩, h11⟩, h12⟩ := hts
      intro c hc
      simp only [List.mem_cons, List.not_mem_nil, or_false] at hc
      rcases hc with rfl | rfl | rfl | rfl | rfl | rfl | rfl | rfl | rfl | rfl | rfl | rfl <;>
        simp [pAlpha, *]
    · rw [if_neg hts] at h
      exact absurd h (by simp)

theorem tryMatch_some_append {xs w rest : List Char} (h : tryMatch xs = some (w, rest))
    (ys : List Char) : tryMatch (xs ++ ys) = some (w, rest ++ ys) := by
  match xs with
  | [] => simp [tryMatch] at h
  | [c1] | [c1, c2] | [c1, c2, c3] | [c1, c2, c3, c4] | [c1, c2, c3, c4, c5]
  | [c1, c2, c3, c4, c5, c6] | [c1, c2, c3, c4, c5, c6, c7]
  | [c1, c2, c3, c4, c5, c6, c7, c8] | [c1, c2, c3, c4, c5, c6, c7, c8, c9]
  | [c1, c2, c3, c4, c5, c6, c7, c8, c9, c10]
  | [c1, c2, c3, c4, c5, c6, c7, c8, c9, c10, c11] => simp [tryMatch] at h
  | c1 :: c2 :: c3 :: c4 :: c5 :: c6 :: c7 :: c8 :: c9 :: c10 :: c11 :: c12 :: r =>
    rw [tryMatch] at h
    by_cases hts : isTs12 c1 c2 c3 c4 c5 c6 c7 c8 c9 c10 c11 c12
    · rw [if_pos hts] at h
      obtain ⟨hw, hr⟩ := Prod.mk.injEq .. ▸ Option.some.injEq .. ▸ h
      subst hw
      subst hr
      show tryMatch (c1 :: c2 :: c3 :: c4 :: c5 :: c6 :: c7 :: c8 :: c9 :: c10 :: c11 :: c12 ::
        (r ++ ys)) = _
      rw [tryMatch, if_pos hts]
    · rw [if_neg hts] at h
      exact absurd h (by simp)

theorem tryMatch_none_cons {c : Char} (hc : pAlpha c = false) (rest : List Char) :
    tryMatch (c :: rest) = none := by
  have hd : c.isDigit = false := by
    simp only [pAlpha, Bool.or_eq_false_iff] at hc
    exact hc.1.1
  match rest with
  | [] => rfl
  | [c2] | [c2, c3] | [c2, c3, c4] | [c2, c3, c4, c5] | [c2, c3, c4, c5, c6]
  | [c2, c3, c4, c5, c6, c7] | [c2, c3, c4, c5, c6, c7, c8]
  | [c2, c3, c4, c5, c6, c7, c8, c9] | [c2, c3, c4, c5, c6, c7, c8, c9, c10]
  | [c2, c3, c4, c5, c6, c7, c8, c9, c10, c11] => rfl
  | c2 :: c3 :: c4 :: c5 :: c6 :: c7 :: c8 :: c9 :: c10 :: c11 :: c12 :: r =>
    rw [tryMatch, if_neg]
    simp [isTs12, hd]

theorem tryMatch_none_append {xs ys : List Char} (h : tryMatch xs = none)
    (hys : ∀ c ∈ ys, pAlpha c = false) : tryMatch (xs ++ ys) = none := by
  by_cases hlen : 12 ≤ xs.length
  · match xs, hlen with
    | c1 :: c2 :: c3 :: c4 :: c5 :: c6 :: c7 :: c8 :: c9 :: c10 :: c11 :: c12 :: r, _ =>
      rw [tryMatch] at h
      by_cases hts : isTs12 c1 c2 c3 c4 c5 c6 c7 c8 c9 c10 c11 c12
      · rw [if_pos hts] at h
        exact absurd h (by simp)
      · show tryMatch (c1 :: c2 :: c3 :: c4 :: c5 :: c6 :: c7 :: c8 :: c9 :: c10 :: c11 :: c12 ::
          (r ++ ys)) = none
        rw [tryMatch, if_neg hts]
  · rcases htm : tryMatch (xs ++ ys) with - | ⟨w, rest⟩
    · rfl
    · obtain ⟨hdec, hwlen, hAlpha⟩ := tryMatch_some_shape htm
      rcases ys with - | ⟨y, ys'⟩
      · rw [List.append_nil] at hdec
        subst hdec
        simp [List.length_append, hwlen] at hlen
      · have hyw : y ∈ w := by
          have e1 : (xs ++ y :: ys')[xs.length]? = some y := by
            rw [List.getElem?_append_right le_rfl]
            simp
          rw [hdec, List.getElem?_append, if_pos (by omega : xs.length < w.length)] at e1
          exact List.getElem?_mem e1
        exact absurd (hAlpha y hyw) (by simp [hys y (by simp)])

theorem subTsF_nil (off : ℚ) : ∀ fuel, subTsF off fuel [] = [] := by
  intro fuel
  cases fuel <;> rfl

theorem subTsF_cons (off : ℚ) (fuel : ℕ) (c : Char) (rest : List Char) :
    subTsF off (fuel + 1) (c :: rest) =
      match tryMatch (c :: rest) with
      | some (w, rest2) => replOf off w ++ subTsF off fuel rest2
      | none => c :: subTsF off fuel rest := rfl

theorem subTsF_congr (off : ℚ) :
    ∀ (N : ℕ) (cs : List Char), cs.length ≤ N → ∀ fuel fuel', cs.length ≤ fuel →
      cs.length ≤ fuel' → subTsF off fuel cs = subTsF off fuel' cs := by
  intro N
  induction N with
  | zero =>
    intro cs hN fuel fuel' h1 h2
    have : cs = [] := by
      cases cs with
      | nil => rfl
      | cons c r => simp at hN
    subst this
    rw [subTsF_nil, subTsF_nil]
  | succ N ih =>
    intro cs hN fuel fuel' h1 h2
    cases cs with
    | nil => rw [subTsF_nil, subTsF_nil]
    | cons c rest =>
      match fuel, h1 with
      | f + 1, h1' =>
        match fuel', h2 with
        | f' + 1, h2' =>
          rw [subTsF_cons, subTsF_cons]
          simp only [List.length_cons] at hN h1' h2'
          rcases htm : tryMatch (c :: rest) with - | ⟨w, rest2⟩
          · simp only []
            rw [ih rest (by omega) f f' (by omega) (by omega)]
          · simp only []
            obtain ⟨hdec, hwlen, -⟩ := tryMatch_some_shape htm
            have hlen2 : rest2.length + 12 = rest.length + 1 := by
              have hl := congrArg List.length hdec
              simp only [List.length_cons, List.length_append, hwlen] at hl
              omega
            rw [ih rest2 (by omega) f f' (by omega) (by omega)]

theorem sub_nil (off : ℚ) : subTimestamps off [] = [] := rfl

theorem sub_eq_some {off : ℚ} {cs w rest2 : List Char} (h : tryMatch cs = some (w, rest2)) :
    subTimestamps off cs = replOf off w ++ subTimestamps off rest2 := by
  obtain ⟨hdec, hwlen, -⟩ := tryMatch_some_shape h
  cases cs with
  | nil => simp [tryMatch] at h
  | cons c rest =>
    rw [subTimestamps, List.length_cons, subTsF_cons, h]
    simp only []
    have hlen2 : rest2.length + 12 = rest.length + 1 := by
      have := congrArg List.length hdec
      simp only [List.length_cons, List.length_append, hwlen] at this
      omega
    rw [subTsF_congr off rest.length rest2 (by omega) rest.length rest2.length (by omega) le_rfl]
    rfl

theorem sub_eq_none {off : ℚ} {c : Char} {rest : List Char}
    (h : tryMatch (c :: rest) = none) :
    subTimestamps off (c :: rest) = c :: subTimestamps off rest := by
  rw [subTimestamps, List.length_cons, subTsF_cons, h]
  rfl

theorem replTimestamp_shape (off : ℚ) (h m s ms : ℕ) :
    ∃ nh nm ns nms, replTimestamp off h m s ms =
      intPad 2 nh ++ ':' :: (intPad 2 nm ++ ':' :: (intPad 2 ns ++ ',' :: intPad 3 nms)) := by
  rcases hcore : adjustTimestampCore off h m s ms with ⟨nh, nm, ns, nms⟩
  exact ⟨nh, nm, ns, nms, by rw [replTimestamp, hcore]⟩

theorem padChars_chars (w n : ℕ) : ∀ c ∈ padChars w n, c = '0' ∨ c.isDigit := by
  intro c hc
  rcases List.mem_append.mp hc with hc | hc
  · exact Or.inl (List.eq_of_mem_replicate hc)
  · exact Or.inr (natChars_digits n c hc)

theorem intPad_chars (w : ℕ) (x : ℤ) : ∀ c ∈ intPad w x, c.isDigit ∨ c = '-' := by
  intro c hc
  rw [intPad] at hc
  by_cases hx : x < 0
  · rw [if_pos hx] at hc
    rcases List.mem_cons.mp hc with rfl | hc
    · exact Or.inr rfl
    · rcases padChars_chars _ _ c hc with rfl | hd
      · exact Or.inl (by decide)
      · exact Or.inl hd
  · rw [if_neg hx] at hc
    rcases padChars_chars _ _ c hc with rfl | hd
    · exact Or.inl (by decide)
    · exact Or.inl hd

theorem replTimestamp_chars (off : ℚ) (h m s ms : ℕ) :
    ∀ c ∈ replTimestamp off h m s ms, c.isDigit ∨ c = '-' ∨ c = ':' ∨ c = ',' := by
  obtain ⟨nh, nm, ns, nms, hshape⟩ := replTimestamp_shape off h m s ms
  rw [hshape]
  intro c hc
  rcases List.mem_append.mp hc with h1 | h1
  · rcases intPad_chars 2 nh c h1 with hd | rfl
    · exact Or.inl hd
    · exact Or.inr (Or.inl rfl)
  rcases List.mem_cons.mp h1 with rfl | h2
  · exact Or.inr (Or.inr (Or.inl rfl))
  rcases List.mem_append.mp h2 with h3 | h3
  · rcases intPad_chars 2 nm c h3 with hd | rfl
    · exact Or.inl hd
    · exact Or.inr (Or.inl rfl)
  rcases List.mem_cons.mp h3 with rfl | h4
  · exact Or.inr (Or.inr (Or.inl rfl))
  rcases List.mem_append.mp h4 with h5 | h5
  · rcases intPad_chars 2 ns c h5 with hd | rfl
    · exact Or.inl hd
    · exact Or.inr (Or.inl rfl)
  rcases List.mem_cons.mp h5 with rfl | h6
  · exact Or.inr (Or.inr (Or.inr rfl))
  rcases intPad_chars 3 nms c h6 with hd | rfl
  · exact Or.inl hd
  · exact Or.inr (Or.inl rfl)

theorem isDigit_ne_nl {c : Char} (h : c.isDigit) : c ≠ '\n' := by
  intro hc
  subst hc
  simp [Char.isDigit] at h

theorem isDigit_not_ws {c : Char} (h : c.isDigit = true) : pyWs c = false := by
  by_contra hne
  have hws : pyWs c = true := by
    revert hne
    cases pyWs c <;> simp
  simp only [pyWs, Bool.or_eq_true, beq_iff_eq] at hws
  rcases hws with ((((rfl | rfl) | rfl) | rfl) | rfl) | rfl <;> exact absurd h (by decide)

theorem pAlpha_ne_nl {c : Char} (h : pAlpha c = true) : c ≠ '\n' := by
  intro hc
  subst hc
  exact absurd h (by decide)

theorem pAlpha_not_ws {c : Char} (h : pAlpha c = true) : pyWs c = false := by
  simp only [pAlpha, Bool.or_eq_true, beq_iff_eq] at h
  rcases h with (hd | rfl) | rfl
  · exact isDigit_not_ws hd
  · decide
  · decide

theorem pyWs_not_pAlpha {c : Char} (h : pyWs c = true) : pAlpha c = false := by
  by_contra hne
  have ha : pAlpha c = true := by
    revert hne
    cases pAlpha c <;> simp
  rw [pAlpha_not_ws ha] at h
  exact absurd h (by simp)

theorem tryMatch_replOf {cs w rest : List Char} (h : tryMatch cs = some (w, rest)) (off : ℚ) :
    ∃ a b c d, replOf off w = replTimestamp off a b c d := by
  match cs with
  | [] => simp [tryMatch] at h
  | [c1] | [c1, c2] | [c1, c2, c3] | [c1, c2, c3, c4] | [c1, c2, c3, c4, c5]
  | [c1, c2, c3, c4, c5, c6] | [c1, c2, c3, c4, c5, c6, c7]
  | [c1, c2, c3, c4, c5, c6, c7, c8] | [c1, c2, c3, c4, c5, c6, c7, c8, c9]
  | [c1, c2, c3, c4, c5, c6, c7, c8, c9, c10]
  | [c1, c2, c3, c4, c5, c6, c7, c8, c9, c10, c11] => simp [tryMatch] at h
  | c1 :: c2 :: c3 :: c4 :: c5 :: c6 :: c7 :: c8 :: c9 :: c10 :: c11 :: c12 :: r =>
    rw [tryMatch] at h
    by_cases hts : isTs12 c1 c2 c3 c4 c5 c6 c7 c8 c9 c10 c11 c12
    · rw [if_pos hts] at h
      obtain ⟨hw, hr⟩ := Prod.mk.injEq .. ▸ Option.some.injEq .. ▸ h
      subst hw
      exact ⟨_, _, _, _, rfl⟩
    · rw [if_neg hts] at h
      exact absurd h (by simp)

theorem replTimestamp_ne_nil (off : ℚ) (h m s ms : ℕ) : replTimestamp off h m s ms ≠ [] := by
  obtain ⟨nh, nm, ns, nms, hshape⟩ := replTimestamp_shape off h m s ms
  rw [hshape]
  simp

theorem replOf_good {cs w rest : List Char} (h : tryMatch cs = some (w, rest)) (off : ℚ) :
    replOf off w ≠ [] ∧ ∀ c ∈ replOf off w, c ≠ '\n' ∧ pyWs c = false := by
  obtain ⟨a, b, c', d, hr⟩ := tryMatch_replOf h off
  rw [hr]
  refine ⟨replTimestamp_ne_nil off a b c' d, ?_⟩
  intro c hc
  rcases replTimestamp_chars off a b c' d c hc with hd | rfl | rfl | rfl
  · exact ⟨isDigit_ne_nl hd, isDigit_not_ws hd⟩
  · exact ⟨by decide, by decide⟩
  · exact ⟨by decide, by decide⟩
  · exact ⟨by decide, by decide⟩

theorem sub_ne_nil {off : ℚ} {cs : List Char} (h : cs ≠ []) : subTimestamps off cs ≠ [] := by
  cases cs with
  | nil => exact absurd rfl h
  | cons c rest =>
    rcases htm : tryMatch (c :: rest) with - | ⟨w, rest2⟩
    · rw [sub_eq_none htm]
      simp
    · rw [sub_eq_some htm]
      intro hcon
      rcases List.append_eq_nil.mp hcon with ⟨h1, -⟩
      exact (replOf_good htm off).1 h1

theorem sub_cons_nl (off : ℚ) (rest : List Char) :
    subTimestamps off ('\n' :: rest) = '\n' :: subTimestamps off rest :=
  sub_eq_none (tryMatch_none_cons (by decide) rest)

theorem sub_head_nl_iff (off : ℚ) (cs : List Char) :
    (subTimestamps off cs).head? = some '\n' ↔ cs.head? = some '\n' := by
  cases cs with
  | nil => simp [sub_nil]
  | cons c rest =>
    by_cases hc : c = '\n'
    · subst hc
      rw [sub_cons_nl]
      simp
    · rcases htm : tryMatch (c :: rest) with - | ⟨w, rest2⟩
      · rw [sub_eq_none htm]
        simp [hc]
      · rw [sub_eq_some htm]
        obtain ⟨hne, hchars⟩ := replOf_good htm off
        rcases hrep : replOf off w with - | ⟨d, ds⟩
        · exact absurd hrep hne
        · have hd : d ≠ '\n' := (hchars d (by rw [hrep]; simp)).1
          simp [hc, hd]

theorem breakN_sub (off : ℚ) :
    ∀ (N : ℕ) (cs : List Char), cs.length ≤ N →
      breakN (subTimestamps off cs) =
        (breakN cs).map (fun p => (subTimestamps off p.1, subTimestamps off p.2)) := by
  intro N
  induction N with
  | zero =>
    intro cs h
    have hnil : cs = [] := by
      cases cs with
      | nil => rfl
      | cons c r => simp at h
    subst hnil
    simp [sub_nil, breakN_nil]
  | succ N ih =>
    intro cs hlen
    cases cs with
    | nil => simp [sub_nil, breakN_nil]
    | cons c rest =>
      simp only [List.length_cons] at hlen
      rcases htm : tryMatch (c :: rest) with - | ⟨w, rest2⟩
      · by_cases hc : c = '\n'
        · subst hc
          rw [sub_cons_nl, breakN_nl, breakN_nl]
          simp [sub_nil]
        · rw [sub_eq_none htm, breakN_cons_ne hc, breakN_cons_ne hc, ih rest (by omega)]
          rcases hbr : breakN rest with - | ⟨a, b⟩
          · simp
          · obtain ⟨hdec, -⟩ := breakN_some hbr
            have htm2 : tryMatch (c :: a) = none := by
              rcases htm3 : tryMatch (c :: a) with - | ⟨w', r'⟩
              · rfl
              · have hx := tryMatch_some_append htm3 ('\n' :: b)
                rw [show (c :: a) ++ '\n' :: b = c :: rest from by simp [hdec]] at hx
                rw [htm] at hx
                exact absurd hx (by simp)
            simp [sub_eq_none htm2]
      · obtain ⟨hdec, hwlen, hAlpha⟩ := tryMatch_some_shape htm
        obtain ⟨hrne, hrch⟩ := replOf_good htm off
        have hwnl : ∀ x ∈ w, x ≠ '\n' := fun x hx => pAlpha_ne_nl (hAlpha x hx)
        have hrnl : ∀ x ∈ replOf off w, x ≠ '\n' := fun x hx => (hrch x hx).1
        have hlen2 : rest2.length + 12 = rest.length + 1 := by
          have hl := congrArg List.length hdec
          simp only [List.length_cons, List.length_append, hwlen] at hl
          omega
        rw [sub_eq_some htm, hdec, breakN_skip hrnl, breakN_skip hwnl, ih rest2 (by omega)]
        rcases hbr : breakN rest2 with - | ⟨a, b⟩
        · simp
        · have hsub : subTimestamps off (w ++ a) = replOf off w ++ subTimestamps off a :=
            sub_eq_some (tryMatch_self_append htm a)
          simp [hsub]

theorem breakNN_sub (off : ℚ) :
    ∀ (N : ℕ) (cs : List Char), cs.length ≤ N →
      breakNN (subTimestamps off cs) =
        (breakNN cs).map (fun p => (subTimestamps off p.1, subTimestamps off p.2)) := by
  intro N
  induction N with
  | zero =>
    intro cs h
    have hnil : cs = [] := by
      cases cs with
      | nil => rfl
      | cons c r => simp at h
    subst hnil
    simp [sub_nil, breakNN_nil]
  | succ N ih =>
    intro cs hlen
    cases cs with
    | nil => simp [sub_nil, breakNN_nil]
    | cons c rest =>
      simp only [List.length_cons] at hlen
      rcases htm : tryMatch (c :: rest) with - | ⟨w, rest2⟩
      · by_cases hc : c = '\n'
        · subst hc
          cases rest with
          | nil =>
            rw [sub_cons_nl, sub_nil]
            rfl
          | cons d r' =>
            by_cases hd : d = '\n'
            · subst hd
              rw [sub_cons_nl, sub_cons_nl, breakNN_nlnl, breakNN_nlnl]
              simp [sub_nil]
            · have hdr : (subTimestamps off (d :: r')).head? ≠ some '\n' := by
                rw [Ne, sub_head_nl_iff]
                simp [hd]
              rw [sub_cons_nl, breakNN_nl_of_head hdr,
                breakNN_nl_of_head (by simp [hd]), ih (d :: r') (by omega)]
              rcases hbr : breakNN (d :: r') with - | ⟨a, b⟩
              · simp
              · simp [sub_cons_nl]
        · rw [sub_eq_none htm, breakNN_cons_ne hc, breakNN_cons_ne hc, ih rest (by omega)]
          rcases hbr : breakNN rest with - | ⟨a, b⟩
          · simp
          · have hdec := breakNN_some hbr
            have htm2 : tryMatch (c :: a) = none := by
              rcases htm3 : tryMatch (c :: a) with - | ⟨w', r'⟩
              · rfl
              · have hx := tryMatch_some_append htm3 ('\n' :: '\n' :: b)
                rw [show (c :: a) ++ '\n' :: '\n' :: b = c :: rest from by simp [hdec]] at hx
                rw [htm] at hx
                exact absurd hx (by simp)
            simp [sub_eq_none htm2]
      · obtain ⟨hdec, hwlen, hAlpha⟩ := tryMatch_some_shape htm
        obtain ⟨hrne, hrch⟩ := replOf_good htm off
        have hwnl : ∀ x ∈ w, x ≠ '\n' := fun x hx => pAlpha_ne_nl (hAlpha x hx)
        have hrnl : ∀ x ∈ replOf off w, x ≠ '\n' := fun x hx => (hrch x hx).1
        have hlen2 : rest2.length + 12 = rest.length + 1 := by
          have hl := congrArg List.length hdec
          simp only [List.length_cons, List.length_append, hwlen] at hl
          omega
        rw [sub_eq_some htm, hdec, breakNN_skip hrnl, breakNN_skip hwnl, ih rest2 (by omega)]
        rcases hbr : breakNN rest2 with - | ⟨a, b⟩
        · simp
        · have hsub : subTimestamps off (w ++ a) = replOf off w ++ subTimestamps off a :=
            sub_eq_some (tryMatch_self_append htm a)
          simp [hsub]

theorem splitNAux_breakN :
    ∀ (cs acc : List Char),
      splitNAux acc cs =
        match breakN cs with
        | none => [acc.reverse ++ cs]
        | some (a, b) => (acc.reverse ++ a) :: splitNAux [] b := by
  intro cs
  induction cs with
  | nil => intro acc; simp [splitNAux_nil, breakN_nil]
  | cons c r ih =>
    intro acc
    by_cases hc : c = '\n'
    · subst hc
      rw [splitNAux_nl, breakN_nl]
      simp
    · rw [splitNAux_cons0 acc c r hc, ih (c :: acc), breakN_cons_ne hc]
      rcases hbr : breakN r with - | ⟨a, b⟩ <;> simp

theorem splitN_break (cs : List Char) :
    splitN cs =
      match breakN cs with
      | none => [cs]
      | some (a, b) => a :: splitN b := by
  have h := splitNAux_breakN cs []
  rw [splitN, h]
  rcases breakN cs with - | ⟨a, b⟩ <;> simp [splitN]

theorem splitNNAux_nil (acc : List Char) : splitNNAux acc [] = [acc.reverse] := rfl

theorem splitNNAux_nl2 (acc r : List Char) :
    splitNNAux acc ('\n' :: '\n' :: r) = acc.reverse :: splitNNAux [] r := rfl

theorem splitNNAux_cons0 (acc : List Char) (c : Char) (r : List Char) (hc : c ≠ '\n') :
    splitNNAux acc (c :: r) = splitNNAux (c :: acc) r := by
  cases r with
  | nil => simp [splitNNAux]
  | cons d r' =>
    by_cases hd : d = '\n'
    · subst hd
      simp [splitNNAux, hc]
    · simp [splitNNAux, hc, hd]

theorem splitNNAux_nl_one (acc : List Char) {d : Char} (r' : List Char) (hd : d ≠ '\n') :
    splitNNAux acc ('\n' :: d :: r') = splitNNAux ('\n' :: acc) (d :: r') := by
  simp [splitNNAux, hd]

theorem splitNNAux_breakNN :
    ∀ (N : ℕ) (cs : List Char), cs.length ≤ N → ∀ (acc : List Char),
      splitNNAux acc cs =
        match breakNN cs with
        | none => [acc.reverse ++ cs]
        | some (a, b) => (acc.reverse ++ a) :: splitNNAux [] b := by
  intro N
  induction N with
  | zero =>
    intro cs h acc
    have hnil : cs = [] := by
      cases cs with
      | nil => rfl
      | cons c r => simp at h
    subst hnil
    simp [splitNNAux_nil, breakNN_nil]
  | succ N ih =>
    intro cs hlen acc
    cases cs with
    | nil => simp [splitNNAux_nil, breakNN_nil]
    | cons c r =>
      simp only [List.length_cons] at hlen
      by_cases hc : c = '\n'
      · subst hc
        cases r with
        | nil =>
          rw [show breakNN ['\n'] = none from rfl]
          rw [show splitNNAux acc ['\n'] = [('\n' :: acc).reverse] from rfl]
          simp
        | cons d r' =>
          by_cases hd : d = '\n'
          · subst hd
            rw [splitNNAux_nl2, breakNN_nlnl]
            simp
          · rw [splitNNAux_nl_one acc r' hd, ih (d :: r') (by omega) ('\n' :: acc),
              breakNN_nl_of_head (by simp [hd])]
            rcases hbr : breakNN (d :: r') with - | ⟨a, b⟩ <;> simp
      · rw [splitNNAux_cons0 acc c r hc, ih r (by omega) (c :: acc), breakNN_cons_ne hc]
        rcases hbr : breakNN r with - | ⟨a, b⟩ <;> simp

theorem splitNN_break (cs : List Char) :
    splitNN cs =
      match breakNN cs with
      | none => [cs]
      | some (a, b) => a :: splitNN b := by
  have h := splitNNAux_breakNN cs.length cs le_rfl []
  rw [splitNN, h]
  rcases breakNN cs with - | ⟨a, b⟩ <;> simp [splitNN]

theorem splitN_sub (off : ℚ) :
    ∀ (N : ℕ) (cs : List Char), cs.length ≤ N →
      splitN (subTimestamps off cs) = (splitN cs).map (subTimestamps off) := by
  intro N
  induction N with
  | zero =>
    intro cs h
    have hnil : cs = [] := by
      cases cs with
      | nil => rfl
      | cons c r => simp at h
    subst hnil
    rw [sub_nil]
    simp [splitN, splitNAux_nil, sub_nil]
  | succ N ih =>
    intro cs hlen
    rw [splitN_break (subTimestamps off cs), splitN_break cs,
      breakN_sub off cs.length cs le_rfl]
    rcases hbr : breakN cs with - | ⟨a, b⟩
    · simp
    · obtain ⟨hdec, -⟩ := breakN_some hbr
      have hblen : b.length ≤ N := by
        have hl := congrArg List.length hdec
        simp only [List.length_append, List.length_cons] at hl
        omega
      simp [ih b hblen]

theorem splitNN_sub (off : ℚ) :
    ∀ (N : ℕ) (cs : List Char), cs.length ≤ N →
      splitNN (subTimestamps off cs) = (splitNN cs).map (subTimestamps off) := by
  intro N
  induction N with
  | zero =>
    intro cs h
    have hnil : cs = [] := by
      cases cs with
      | nil => rfl
      | cons c r => simp at h
    subst hnil
    rw [sub_nil]
    simp [splitNN, splitNNAux_nil, sub_nil]
  | succ N ih =>
    intro cs hlen
    rw [splitNN_break (subTimestamps off cs), splitNN_break cs,
      breakNN_sub off cs.length cs le_rfl]
    rcases hbr : breakNN cs with - | ⟨a, b⟩
    · simp
    · have hdec := breakNN_some hbr
      have hblen : b.length ≤ N := by
        have hl := congrArg List.length hdec
        simp only [List.length_append, List.length_cons] at hl
        omega
      simp [ih b hblen]

theorem sub_all_ws {off : ℚ} :
    ∀ {w : List Char}, (∀ c ∈ w, pyWs c = true) → subTimestamps off w = w := by
  intro w
  induction w with
  | nil => intro h; exact sub_nil off
  | cons c rest ih =>
    intro h
    have hc : pAlpha c = false := pyWs_not_pAlpha (h c (by simp))
    rw [sub_eq_none (tryMatch_none_cons hc rest), ih (fun x hx => h x (by simp [hx]))]

theorem sub_append_ws (off : ℚ) :
    ∀ (N : ℕ) (t : List Char), t.length ≤ N → ∀ (w : List Char), (∀ c ∈ w, pyWs c = true) →
      subTimestamps off (t ++ w) = subTimestamps off t ++ w := by
  intro N
  induction N with
  | zero =>
    intro t h w hw
    have hnil : t = [] := by
      cases t with
      | nil => rfl
      | cons c r => simp at h
    subst hnil
    simp [sub_nil, sub_all_ws hw]
  | succ N ih =>
    intro t hlen w hw
    cases t with
    | nil => simp [sub_nil, sub_all_ws hw]
    | cons c t' =>
      simp only [List.length_cons] at hlen
      rcases htm : tryMatch (c :: t') with - | ⟨wm, rest2⟩
      · have hnone : tryMatch ((c :: t') ++ w) = none :=
          tryMatch_none_append htm (fun x hx => pyWs_not_pAlpha (hw x hx))
        rw [List.cons_append] at hnone ⊢
        rw [sub_eq_none hnone, sub_eq_none htm, ih t' (by omega) w hw]
        rfl
      · obtain ⟨hdec, hwlen, -⟩ := tryMatch_some_shape htm
        have hlen2 : rest2.length + 12 = t'.length + 1 := by
          have hl := congrArg List.length hdec
          simp only [List.length_cons, List.length_append, hwlen] at hl
          omega
        have happ : (c :: t') ++ w = wm ++ (rest2 ++ w) := by
          rw [hdec]
          simp
        rw [happ, sub_eq_some (tryMatch_self_append htm (rest2 ++ w)),
          ih rest2 (by omega) w hw, sub_eq_some htm]
        simp

theorem dropWhile_sub (off : ℚ) :
    ∀ (N : ℕ) (cs : List Char), cs.length ≤ N →
      (subTimestamps off cs).dropWhile pyWs = subTimestamps off (cs.dropWhile pyWs) := by
  intro N
  induction N with
  | zero =>
    intro cs h
    have hnil : cs = [] := by
      cases cs with
      | nil => rfl
      | cons c r => simp at h
    subst hnil
    simp [sub_nil]
  | succ N ih =>
    intro cs hlen
    cases cs with
    | nil => simp [sub_nil]
    | cons c rest =>
      simp only [List.length_cons] at hlen
      by_cases hws : pyWs c = true
      · have hc : pAlpha c = false := pyWs_not_pAlpha hws
        rw [sub_eq_none (tryMatch_none_cons hc rest), List.dropWhile_cons, List.dropWhile_cons]
        rw [if_pos hws, if_pos hws]
        exact ih rest (by omega)
      · rw [List.dropWhile_cons, if_neg hws]
        rcases htm : tryMatch (c :: rest) with - | ⟨w, rest2⟩
        · rw [sub_eq_none htm, List.dropWhile_cons, if_neg hws]
        · rw [sub_eq_some htm]
          obtain ⟨hrne, hrch⟩ := replOf_good htm off
          rcases hrep : replOf off w with - | ⟨d, ds⟩
          · exact absurd hrep hrne
          · have hd : pyWs d = false := (hrch d (by rw [hrep]; simp)).2
            rw [List.cons_append, List.dropWhile_cons, if_neg (by simp [hd])]

theorem dropWhile_head_not {α : Type} (p : α → Bool) :
    ∀ (l : List α) (a : α), (l.dropWhile p).head? = some a → p a = false := by
  intro l
  induction l with
  | nil => intro a h; simp at h
  | cons c l' ih =>
    intro a h
    by_cases hc : p c = true
    · rw [List.dropWhile_cons, if_pos hc] at h
      exact ih a h
    · rw [List.dropWhile_cons, if_neg hc] at h
      simp only [List.head?_cons, Option.some.injEq] at h
      subst h
      simpa using hc

theorem dropWhile_append_all {α : Type} {p : α → Bool} :
    ∀ {xs : List α}, (∀ x ∈ xs, p x = true) → ∀ (ys : List α),
      (xs ++ ys).dropWhile p = ys.dropWhile p := by
  intro xs
  induction xs with
  | nil => intro h ys; rfl
  | cons c xs' ih =>
    intro h ys
    rw [List.cons_append, List.dropWhile_cons, if_pos (h c (by simp))]
    exact ih (fun x hx => h x (by simp [hx])) ys

theorem sub_getLast_ws (off : ℚ) :
    ∀ (N : ℕ) (t : List Char), t.length ≤ N →
      (∀ a, t.getLast? = some a → pyWs a = false) →
      ∀ b, (subTimestamps off t).getLast? = some b → pyWs b = false := by
  intro N
  induction N with
  | zero =>
    intro t hlen hws b hb
    have hnil : t = [] := by
      cases t with
      | nil => rfl
      | cons c r => simp at hlen
    subst hnil
    rw [sub_nil] at hb
    simp at hb
  | succ N ih =>
    intro t hlen hws b hb
    cases t with
    | nil =>
      rw [sub_nil] at hb
      simp at hb
    | cons c t' =>
      simp only [List.length_cons] at hlen
      rcases htm : tryMatch (c :: t') with - | ⟨wm, rest2⟩
      · rw [sub_eq_none htm] at hb
        cases ht' : t' with
        | nil =>
          subst ht'
          rw [sub_nil] at hb
          have h2 : ([c] : List Char).getLast? = some c := by simp
          rw [h2] at hb
          have hcb : c = b := Option.some.inj hb
          rw [← hcb]
          exact hws c (by simp)
        | cons d t'' =>
          subst ht'
          have hsne : subTimestamps off (d :: t'') ≠ [] := sub_ne_nil (by simp)
          rcases hseq : subTimestamps off (d :: t'') with - | ⟨e, es⟩
          · exact absurd hseq hsne
          · rw [hseq, List.getLast?_cons_cons] at hb
            refine ih (d :: t'') (by omega) ?_ b (by rw [hseq]; exact hb)
            intro a ha
            exact hws a (by rw [List.getLast?_cons_cons]; exact ha)
      · obtain ⟨hdec, hwlen, -⟩ := tryMatch_some_shape htm
        obtain ⟨hrne, hrch⟩ := replOf_good htm off
        have hlen2 : rest2.length + 12 = t'.length + 1 := by
          have hl := congrArg List.length hdec
          simp only [List.length_cons, List.length_append, hwlen] at hl
          omega
        rw [sub_eq_some htm] at hb
        cases hrest : rest2 with
        | nil =>
          subst hrest
          rw [sub_nil, List.append_nil] at hb
          have hmem : b ∈ replOf off wm := by
            have := List.head?_reverse (replOf off wm)
            rw [← this] at hb
            exact List.mem_reverse.mp (List.mem_of_mem_head? hb)
          exact (hrch b hmem).2
        | cons d r'' =>
          subst hrest
          have hsne : subTimestamps off (d :: r'') ≠ [] := sub_ne_nil (by simp)
          rw [List.getLast?_append_of_ne_nil _ hsne] at hb
          refine ih (d :: r'') (by omega) ?_ b hb
          intro a ha
          refine hws a ?_
          rw [hdec, List.getLast?_append_of_ne_nil _ (by simp)]
          exact ha

theorem pyStrip_sub (off : ℚ) (cs : List Char) :
    pyStrip (subTimestamps off cs) = subTimestamps off (pyStrip cs) := by
  rw [pyStrip, pyStrip, dropWhile_sub off cs.length cs le_rfl]
  set u := cs.dropWhile pyWs with hu
  set t := (u.reverse.dropWhile pyWs).reverse with ht
  set w := (u.reverse.takeWhile pyWs).reverse with hw2
  have hudecomp : u = t ++ w := by
    rw [ht, hw2, ← List.reverse_append, List.takeWhile_append_dropWhile, List.reverse_reverse]
  have hwws : ∀ c ∈ w, pyWs c = true := by
    intro c hc
    rw [hw2, List.mem_reverse] at hc
    exact List.mem_takeWhile_imp hc
  have hsubu : subTimestamps off u = subTimestamps off t ++ w := by
    rw [hudecomp]
    exact sub_append_ws off t.length t le_rfl w hwws
  rw [hsubu, List.reverse_append,
    dropWhile_append_all (fun x hx => hwws x (List.mem_reverse.mp hx))]
  rcases hst : subTimestamps off t with - | ⟨d0, ds⟩
  · simp [hst]
  · have hbne : (subTimestamps off t).reverse ≠ [] := by simp [hst]
    rcases hrev : (subTimestamps off t).reverse with - | ⟨b, bs⟩
    · exact absurd hrev hbne
    · have hb : (subTimestamps off t).getLast? = some b := by
        rw [← List.head?_reverse, hrev]
        rfl
      have htlast : ∀ a, t.getLast? = some a → pyWs a = false := by
        intro a ha
        have hrw : t.reverse = u.reverse.dropWhile pyWs := by
          rw [ht, List.reverse_reverse]
        rw [← List.head?_reverse, hrw] at ha
        exact dropWhile_head_not pyWs _ a ha
      have hbws : pyWs b = false := sub_getLast_ws off t.length t le_rfl htlast b hb
      rw [hst] at hrev
      rw [hrev, List.dropWhile_cons, if_neg (by simp [hbws]), ← hrev,
        List.reverse_reverse]

theorem keepBlock_sub (off : ℚ) (b : List Char) :
    keepBlock (subTimestamps off b) = keepBlock b := by
  rw [keepBlock, keepBlock, pyStrip_sub]
  rcases hcs : pyStrip b with - | ⟨c, r⟩
  · rw [sub_nil]
  · rcases hs : subTimestamps off (c :: r) with - | ⟨d, ds⟩
    · exact absurd hs (sub_ne_nil (by simp))
    · have hlen : (splitN (subTimestamps off (c :: r))).length = (splitN (c :: r)).length := by
        rw [splitN_sub off (c :: r).length (c :: r) le_rfl, List.length_map]
      rw [hs] at hlen
      rw [hlen]
      rfl

theorem candidates_sub (off : ℚ) (d : List Char) :
    (splitNN (pyStrip (subTimestamps off d))).filter keepBlock =
      ((splitNN (pyStrip d)).filter keepBlock).map (subTimestamps off) := by
  rw [pyStrip_sub, splitNN_sub off (pyStrip d).length _ le_rfl, List.filter_map]
  congr 1
  apply List.filter_congr
  intro x _
  exact keepBlock_sub off x

theorem survivors_length :
    ∀ pairs : List (String × ℚ),
      (survivors pairs).length =
        (pairs.map (fun p => (splitNN (pyStrip p.1.data)).countP keepBlock)).sum := by
  intro pairs
  induction pairs with
  | nil => simp [survivors]
  | cons p tl ih =>
    obtain ⟨c, t⟩ := p
    rw [survivors_cons]
    simp only [List.length_append, List.map_cons, List.sum_cons, ih]
    congr 1
    by_cases ht : t = 0
    · rw [adjust_srt_timestamps, if_pos ht, List.countP_eq_length_filter]
    · rw [adjust_srt_timestamps, if_neg ht,
        show (String.mk (subTimestamps t c.data)).data = subTimestamps t c.data from rfl,
        candidates_sub t c.data, List.length_map, List.countP_eq_length_filter]

theorem countP_keepBlock (l : List (List Char)) :
    l.countP keepBlock = l.countP (fun b => decide (3 ≤ (splitN (pyStrip b)).length)) := by
  apply List.countP_congr
  intro b _
  rcases hcs : pyStrip b with - | ⟨c, r⟩
  · rw [keepBlock, hcs]
    rfl
  · rw [keepBlock, hcs]
    rfl

theorem sum_zip_left (f : String → ℕ) :
    ∀ (cs : List String) (ts : List ℚ), cs.length = ts.length →
      ((cs.zip ts).map (fun p => f p.1)).sum = (cs.map f).sum := by
  intro cs
  induction cs with
  | nil => intro ts h; simp
  | cons c cs' ih =>
    intro ts h
    cases ts with
    | nil => simp at h
    | cons t ts' =>
      simp only [List.zip_cons_cons, List.map_cons, List.sum_cons]
      rw [ih ts' (by simpa using h)]

theorem blockOut_lines {j : ℕ} {s : List Char} (hk : keepBlock s = true) :
    splitN (blockOut j s) = natChars j :: (splitN (pyStrip s)).tail := by
  obtain ⟨-, h3⟩ := (keepBlock_iff s).mp hk
  refine splitN_joinN _ (by simp) ?_
  intro x hx
  rcases List.mem_cons.mp hx with rfl | hx
  · intro c hc
    exact isDigit_ne_nl (natChars_digits j c hc)
  · exact splitN_no_nl (pyStrip s) x (List.mem_of_mem_tail hx)

theorem keepBlock_blockOut_length {j : ℕ} {s : List Char} (hk : keepBlock s = true) :
    3 ≤ (splitN (blockOut j s)).length := by
  obtain ⟨-, h3⟩ := (keepBlock_iff s).mp hk
  rw [blockOut_lines hk]
  simp only [List.length_cons, List.length_tail]
  omega

/-- C4: the merge renumbers all surviving blocks sequentially starting
at 1 across the whole concatenated stream: the i-th output block is the
i-th surviving block (chunk order and each chunk's internal order
preserved) rendered with index i+1.  In particular merging two chunks
with block indices [1,2] and [1,2,3] yields output indices 1,2,3,4,5
over the original blocks in order. -/
theorem C4_sequential_renumbering :
    (∀ (contents : List String) (times : List ℚ), 2 ≤ contents.length →
      (mergeAux 1 (contents.zip times)).length = (survivors (contents.zip times)).length ∧
      ∀ i, (mergeAux 1 (contents.zip times))[i]? =
        (survivors (contents.zip times))[i]?.map (fun b => blockOut (i + 1) b))
    ∧ merge_srt_files
        ["1\n00:00:00,000 --> 00:00:01,000\nA\n\n2\n00:00:01,000 --> 00:00:02,000\nB",
         "1\n00:00:00,000 --> 00:00:01,000\nC\n\n2\n00:00:01,000 --> 00:00:02,000\nD\n\n3\n00:00:02,000 --> 00:00:03,000\nE"]
        [0, 0] =
      "1\n00:00:00,000 --> 00:00:01,000\nA\n\n2\n00:00:01,000 --> 00:00:02,000\nB\n\n3\n00:00:00,000 --> 00:00:01,000\nC\n\n4\n00:00:01,000 --> 00:00:02,000\nD\n\n5\n00:00:02,000 --> 00:00:03,000\nE" := by
  constructor
  · intro contents times _
    rw [mergeAux_spec]
    refine ⟨numberFrom_length _ 1, ?_⟩
    intro i
    rw [numberFrom_getElem?]
    have h : 1 + i = i + 1 := by omega
    rw [h]
  · with_unfolding_all decide

/-- C4 witness: the general statement applied to the concrete two-chunk
input of the claim. -/
theorem C4_sequential_renumbering_witness :
    2 ≤ (["1\n00:00:00,000 --> 00:00:01,000\nA\n\n2\n00:00:01,000 --> 00:00:02,000\nB",
          "1\n00:00:00,000 --> 00:00:01,000\nC\n\n2\n00:00:01,000 --> 00:00:02,000\nD\n\n3\n00:00:02,000 --> 00:00:03,000\nE"] :
        List String).length ∧
      (mergeAux 1 ((["1\n00:00:00,000 --> 00:00:01,000\nA\n\n2\n00:00:01,000 --> 00:00:02,000\nB",
          "1\n00:00:00,000 --> 00:00:01,000\nC\n\n2\n00:00:01,000 --> 00:00:02,000\nD\n\n3\n00:00:02,000 --> 00:00:03,000\nE"] :
        List String).zip [0, 0])).length =
        (survivors ((["1\n00:00:00,000 --> 00:00:01,000\nA\n\n2\n00:00:01,000 --> 00:00:02,000\nB",
          "1\n00:00:00,000 --> 00:00:01,000\nC\n\n2\n00:00:01,000 --> 00:00:02,000\nD\n\n3\n00:00:02,000 --> 00:00:03,000\nE"] :
        List String).zip [0, 0])).length :=
  ⟨by decide,
    (C4_sequential_renumbering.1
      ["1\n00:00:00,000 --> 00:00:01,000\nA\n\n2\n00:00:01,000 --> 00:00:02,000\nB",
       "1\n00:00:00,000 --> 00:00:01,000\nC\n\n2\n00:00:01,000 --> 00:00:02,000\nD\n\n3\n00:00:02,000 --> 00:00:03,000\nE"]
      [0, 0] (by decide)).1⟩

/-- C2 (amended): blocks with fewer than 3 lines never survive the
merge (every output block has at least 3 lines) and no error is raised,
but a block whose second line is not a valid time-range is NOT dropped:
the 3-line block with second line "not a timerange" is kept, renumbered,
in the merged output. -/
theorem C2_amended :
    (∀ (contents : List String) (times : List ℚ),
      ∀ b ∈ mergeAux 1 (contents.zip times), 3 ≤ (splitN b).length)
    ∧ merge_srt_files
        ["1\nnot a timerange\nHello", "1\n00:00:00,000 --> 00:00:02,000\nHello"] [0, 0] =
      "1\nnot a timerange\nHello\n\n2\n00:00:00,000 --> 00:00:02,000\nHello" := by
  constructor
  · intro contents times b hb
    rw [mergeAux_spec] at hb
    obtain ⟨j, s, hs, rfl⟩ := mem_numberFrom _ 1 b hb
    have hk : keepBlock s = true := by
      simp only [survivors, List.mem_flatMap] at hs
      obtain ⟨p, -, hp⟩ := hs
      exact (List.mem_filter.mp hp).2
    exact keepBlock_blockOut_length hk
  · with_unfolding_all decide

/-- C2 witness: the first conjunct applied to a concrete merged block:
the single surviving block of the bad-time-range document has 3 lines. -/
theorem C2_amended_witness :
    (['1', '\n', 'n', 'o', 't', ' ', 'a', ' ', 't', 'i', 'm', 'e', 'r', 'a', 'n', 'g', 'e',
        '\n', 'H', 'e', 'l', 'l', 'o'] ∈
      mergeAux 1 ((["1\nnot a timerange\nHello"] : List String).zip [0])) ∧
    3 ≤ (splitN
      ['1', '\n', 'n', 'o', 't', ' ', 'a', ' ', 't', 'i', 'm', 'e', 'r', 'a', 'n', 'g', 'e',
        '\n', 'H', 'e', 'l', 'l', 'o']).length :=
  ⟨by with_unfolding_all decide,
    C2_amended.1 ["1\nnot a timerange\nHello"] [0] _ (by with_unfolding_all decide)⟩

/-- C1: merging the two-chunk input (chunk A with offset 0, chunk B with
offset 120.0) produces exactly the claimed merged document: chunk B's
timestamps are shifted by two minutes and its block is renumbered to 2. -/
theorem C1_merge_two_chunks :
    merge_srt_files
      ["1\n00:00:00,000 --> 00:00:02,000\nHello",
       "1\n00:00:01,000 --> 00:00:03,000\nWorld"] [0, 120] =
    "1\n00:00:00,000 --> 00:00:02,000\nHello\n\n2\n00:02:01,000 --> 00:02:03,000\nWorld" := by
  with_unfolding_all decide

/-- C3: the merge step of the driver returns a single document
unchanged, whatever the offset: no shifting and no renumbering happen
for a one-element input. -/
theorem C3_single_document_unchanged :
    ∀ (d : String) (o : ℚ), mergeDocuments [d] [o] = d := by
  intro d o
  rfl

/-- C7: shifting any document by offset 0 is the identity, byte for
byte (the fast path of adjust_srt_timestamps). -/
theorem C7_zero_offset_identity :
    ∀ d : String, adjust_srt_timestamps d 0 = d := by
  intro d
  simp [adjust_srt_timestamps]

/-- C5: evaluation of the timestamp shift at the two claimed inputs.
Shifting 00:00:10,500 by +300.0 seconds gives 00:05:10,500 as claimed,
but shifting 00:59:59,999 by +1.0 gives 01:00:00,998, not the claimed
01:00:00,999: the source computes the millisecond field as
int((total % 1) * 1000), and double rounding of 3599.999 + 1.0 leaves
(total % 1) * 1000 just below 999, which int() truncates to 998. -/
theorem C5_shift_eval :
    adjust_srt_timestamps "00:00:10,500" 300 = "00:05:10,500" ∧
    adjust_srt_timestamps "00:59:59,999" 1 = "01:00:00,998" := by
  with_unfolding_all decide

/-- C9 counterexample: for the non-positive chunk length -1 the chunk
planner does not fail at all: it returns successfully (with empty chunk
and offset lists), so it neither raises a ConfigError nor refuses to
return a chunk list. -/
theorem C9_counterexample :
    split_audio 700000 (-1) = .ok ([], []) := by
  with_unfolding_all decide

/-- C9 (amended): on a non-positive chunk length split_audio never
raises a ConfigError: for length 0 it fails with the ValueError raised
by range() on a zero step, and for negative lengths it silently returns
empty chunk and offset lists. -/
theorem C9_nonpositive_length :
    ∀ (sourceLen : ℕ) (length : ℤ), length ≤ 0 →
      split_audio sourceLen length =
        (if length = 0 then .error "ValueError: range() arg 3 must not be zero"
         else .ok ([], [])) := by
  intro sourceLen length hle
  by_cases h0 : length = 0
  · simp [split_audio, pythonRangeZero, h0]
  · have hlt : length < 0 := lt_of_le_of_ne hle h0
    simp [split_audio, pythonRangeZero, h0, hlt]

/-- C9 witness: the amended statement evaluated at source length 700000
and chunk length -1. -/
theorem C9_nonpositive_length_witness :
    ((-1 : ℤ) ≤ 0) ∧
      split_audio 700000 (-1) =
        (if (-1 : ℤ) = 0 then .error "ValueError: range() arg 3 must not be zero"
         else .ok ([], [])) :=
  ⟨by decide, C9_nonpositive_length 700000 (-1) (by decide)⟩

/-- C8: for every positive chunk length L the planner emits exactly
ceil(T / L) chunks; the i-th chunk is the slice starting at millisecond
i*L (ending at the next multiple of L or the end of the source), its
start offset is the double i*L/1000 seconds, and the end of each chunk
is exactly the start of the next (no gaps, no overlaps).  At chunk
length 300000 and duration 700000 this gives three chunks with offsets
0.0, 300.0, 600.0. -/
theorem C8_chunk_planner :
    (∀ (T : ℕ) (L : ℤ), 0 < L →
      ∃ chunks times, split_audio T L = .ok (chunks, times) ∧
        chunks.length = T ⌈/⌉ L.toNat ∧
        times.length = chunks.length ∧
        (∀ i, chunks[i]? =
          if i < chunks.length then some (i * L.toNat, min (i * L.toNat + L.toNat) T) else none) ∧
        (∀ i, times[i]? =
          if i < chunks.length then some (roundD ((i * L.toNat : ℚ) / 1000)) else none) ∧
        (∀ i, i + 1 < chunks.length → min (i * L.toNat + L.toNat) T = (i + 1) * L.toNat))
    ∧ split_audio 700000 300000 =
        .ok ([(0, 300000), (300000, 600000), (600000, 700000)], [0, 300, 600]) := by
  constructor
  · intro T L hL
    have h0 : ¬(L = 0) := by omega
    have h1 : ¬(L < 0) := by omega
    set n := L.toNat with hn
    have hnpos : 0 < n := by omega
    have hsplit : split_audio T L =
        .ok ((List.range ((T + n - 1) / n)).map (fun i => (i * n, min (i * n + n) T)),
          (List.range ((T + n - 1) / n)).map
            (fun (i : ℕ) => roundD (((i * n : ℕ) : ℚ) / 1000))) := by
      simp only [split_audio, pythonRangeZero, h0, h1, if_false, List.map_map]
      rfl
    refine ⟨_, _, hsplit, ?_, ?_, ?_, ?_, ?_⟩
    · simp [Nat.ceilDiv_eq_add_pred_div]
    · simp
    · intro i
      simp only [List.length_map, List.length_range]
      by_cases hi : i < (T + n - 1) / n
      · simp [List.getElem?_map, List.getElem?_range, hi]
      · rw [if_neg hi, List.getElem?_eq_none]
        simpa using hi
    · intro i
      simp only [List.length_map, List.length_range]
      by_cases hi : i < (T + n - 1) / n
      · simp [List.getElem?_map, List.getElem?_range, hi, Nat.cast_mul]
      · rw [if_neg hi, List.getElem?_eq_none]
        simpa using hi
    · intro i hi
      simp only [List.length_map, List.length_range] at hi
      have h2 : (i + 2) * n ≤ T + n - 1 := (Nat.le_div_iff_mul_le hnpos).mp (by omega)
      have h3 : (i + 1) * n + n ≤ T + n - 1 := by
        calc (i + 1) * n + n = (i + 2) * n := by ring
        _ ≤ T + n - 1 := h2
      have h4 : i * n + n = (i + 1) * n := by ring
      have h5 : (i + 1) * n ≤ T := by omega
      omega
  · with_unfolding_all decide

/-- C8 witness: the general statement applied at duration 700000 ms and
chunk length 300000 ms. -/
theorem C8_chunk_planner_witness :
    (0 : ℤ) < 300000 ∧
      ∃ chunks times, split_audio 700000 300000 = .ok (chunks, times) ∧
        chunks.length = 700000 ⌈/⌉ (300000 : ℤ).toNat ∧
        times.length = chunks.length ∧
        (∀ i, chunks[i]? =
          if i < chunks.length then
            some (i * (300000 : ℤ).toNat, min (i * (300000 : ℤ).toNat + (300000 : ℤ).toNat) 700000)
          else none) ∧
        (∀ i, times[i]? =
          if i < chunks.length then some (roundD ((i * (300000 : ℤ).toNat : ℚ) / 1000)) else none) ∧
        (∀ i, i + 1 < chunks.length →
          min (i * (300000 : ℤ).toNat + (300000 : ℤ).toNat) 700000 = (i + 1) * (300000 : ℤ).toNat) :=
  ⟨by decide, C8_chunk_planner.1 700000 300000 (by decide)⟩

/-- C2 counterexample: a 3-line block whose second line is
"not a timerange" is not dropped: merged alone it appears verbatim in
the output (the source never validates the time-range line, it only
checks that a block has at least 3 lines). -/
theorem C2_counterexample :
    merge_srt_files ["1\nnot a timerange\nHello"] [0] = "1\nnot a timerange\nHello" := by
  with_unfolding_all decide

/-- C6 counterexample: the timestamp 00:59:59,002 does not round-trip
through the fractional-seconds representation: the double value of
3599.002 has fractional part slightly below 0.002, so the millisecond
field comes back as 001 and the rendered string changes. -/
theorem C6_counterexample :
    replTimestamp 0 0 59 59 2 ≠ renderTs 0 59 59 2 := by
  with_unfolding_all decide

/-- C10: for equal-length inputs the number of blocks in the merged
output is exactly the number of candidate blocks (blank-line-separated
segments of the stripped input documents) whose stripped text has at
least 3 lines — the timestamp substitution never changes the
newline/whitespace skeleton, so counting over the input documents equals
the code's counting over the shifted documents.  Merging empty inputs
yields the empty string. -/
theorem C10_block_count :
    (∀ (contents : List String) (times : List ℚ), contents.length = times.length →
      (mergeAux 1 (contents.zip times)).length =
        (contents.map (fun d => (splitNN (pyStrip d.data)).countP
          (fun b => decide (3 ≤ (splitN (pyStrip b)).length)))).sum)
    ∧ merge_srt_files [] [] = "" := by
  constructor
  · intro contents times hlen
    rw [mergeAux_spec, numberFrom_length, survivors_length,
      sum_zip_left (fun d => (splitNN (pyStrip d.data)).countP keepBlock) contents times hlen]
    congr 1
    apply List.map_congr_left
    intro d _
    exact countP_keepBlock (splitNN (pyStrip d.data))
  · rfl

/-- C10 witness: the count identity evaluated on a concrete two-chunk
input (one surviving block per chunk, one dropped 2-line block). -/
theorem C10_block_count_witness :
    ((["1\n00:00:00,000 --> 00:00:02,000\nHello\n\n2\n00:00:03,000",
        "1\n00:00:01,000 --> 00:00:03,000\nWorld"] : List String).length =
      ([0, 120] : List ℚ).length) ∧
    (mergeAux 1 ((["1\n00:00:00,000 --> 00:00:02,000\nHello\n\n2\n00:00:03,000",
        "1\n00:00:01,000 --> 00:00:03,000\nWorld"] : List String).zip [0, 120])).length =
      ((["1\n00:00:00,000 --> 00:00:02,000\nHello\n\n2\n00:00:03,000",
        "1\n00:00:01,000 --> 00:00:03,000\nWorld"] : List String).map
        (fun d => (splitNN (pyStrip d.data)).countP
          (fun b => decide (3 ≤ (splitN (pyStrip b)).length)))).sum :=
  ⟨rfl,
    C10_block_count.1
      ["1\n00:00:00,000 --> 00:00:02,000\nHello\n\n2\n00:00:03,000",
       "1\n00:00:01,000 --> 00:00:03,000\nWorld"] [0, 120] rfl⟩

end SrtApp
